import Mathlib

/-!
Verification of the keyword-driven snippet generator (`snippet_gen.cpp`).

Strings are modelled as `List Char` (`Str`); the persisted keyword file is
modelled as its sequence of `getline` lines.  Each definition below is a
direct translation of the correspondingly named C++ function.
-/

set_option maxHeartbeats 1000000

namespace SnippetGen

/-- Strings of the C++ program, modelled as lists of characters. -/
abbrev Str := List Char

/-- Conversion from Lean string literals to `Str` (for concrete inputs). -/
def str (s : String) : Str := s.data

/-- C locale `isspace` on ASCII characters. -/
def isSpaceC (c : Char) : Bool :=
  c = ' ' || c = '\t' || c = '\n' || c = '\x0b' || c = '\x0c' || c = '\r'

/-- C locale `ispunct` on ASCII characters. -/
def isPunctC (c : Char) : Bool :=
  let n := c.toNat
  (33 ≤ n && n ≤ 47) || (58 ≤ n && n ≤ 64) || (91 ≤ n && n ≤ 96) || (123 ≤ n && n ≤ 126)

/-- C `tolower` on ASCII characters. -/
def toLowerC (c : Char) : Char :=
  if 'A' ≤ c && c ≤ 'Z' then Char.ofNat (c.toNat + 32) else c

/-- The C++ helper `trim`: strip leading and trailing `isspace` characters. -/
def trim (s : Str) : Str :=
  ((s.dropWhile isSpaceC).reverse.dropWhile isSpaceC).reverse

/-- The C++ helper `normalize_token`: strip punctuation from both ends, lowercase. -/
def normalize_token (t : Str) : Str :=
  (((t.dropWhile isPunctC).reverse.dropWhile isPunctC).reverse).map toLowerC

/-- Splitting at a delimiter character, with `std::getline(stream, item, d)`
semantics: an empty input yields no items, and a trailing delimiter does not
produce a final empty item. -/
def splitCh (d : Char) : Str → List Str
  | [] => []
  | c :: rest =>
    if c = d then [] :: splitCh d rest
    else
      match splitCh d rest with
      | [] => [[c]]
      | l :: ls => (c :: l) :: ls

/-- The C++ helper `split_csv`: split at commas, trim each item. -/
def split_csv (s : Str) : List Str := (splitCh ',' s).map trim

/-- Decomposition of a character stream into its `getline` lines. -/
def getLines : Str → List Str := splitCh '\n'

/-- Joining body lines back with a newline after each line, as the loader's
`buffer << line << "\n"` accumulation does. -/
def joinNl (ls : List Str) : Str := ls.flatMap (fun l => l ++ ['\n'])

/-- Splitting at whitespace, keeping empty pieces (helper for `tokenize`). -/
def splitWs : Str → List Str
  | [] => []
  | c :: rest =>
    if isSpaceC c then [] :: splitWs rest
    else
      match splitWs rest with
      | [] => [[c]]
      | l :: ls => (c :: l) :: ls

/-- The C++ `tokenize`: whitespace-separated tokens via `iss >> t`
(empty tokens never occur). -/
def tokenize (s : Str) : List Str := (splitWs s).filter (fun t => t ≠ [])

/-- First index of a character in a string (`std::string::find`). -/
def strFind (c : Char) : Str → Option Nat
  | [] => none
  | x :: xs => if x = c then some 0 else (strFind c xs).map (· + 1)

/-- Last index at which `pat` occurs in `s` (`std::string::rfind`). -/
def rfindStr (pat s : Str) : Option Nat :=
  ((List.range (s.length + 1)).filter (fun i => pat.isPrefixOf (s.drop i))).getLast?

/-- The C++ `substr(pos, len)` on our strings. -/
def substr (s : Str) (pos len : Nat) : Str := (s.drop pos).take len

/-- Lexicographic comparison of strings, as C++ `std::string::operator<`. -/
def ltStr : Str → Str → Bool
  | [], [] => false
  | [], _ :: _ => true
  | _ :: _, [] => false
  | a :: as, b :: bs => if a < b then true else if b < a then false else ltStr as bs

/-- Ordered insert-or-assign into an association list sorted by `ltStr`,
modelling `std::map::operator[]` together with the map's sorted iteration
order. -/
def mapInsert {α : Type} (k : Str) (v : α) : List (Str × α) → List (Str × α)
  | [] => [(k, v)]
  | (k', v') :: rest =>
    if ltStr k k' then (k, v) :: (k', v') :: rest
    else if k = k' then (k, v) :: rest
    else (k', v') :: mapInsert k v rest

/-- Lookup in an association list, modelling `std::map::find`. -/
def mapFind {α : Type} (k : Str) : List (Str × α) → Option α
  | [] => none
  | (k', v') :: rest => if k' = k then some v' else mapFind k rest

/-- Ordered duplicate-free insert into a list sorted by `ltStr`, modelling
`std::set<std::string>::insert` together with the set's sorted iteration
order. -/
def setInsert (k : Str) : List Str → List Str
  | [] => [k]
  | x :: xs =>
    if ltStr k x then k :: x :: xs
    else if k = x then x :: xs
    else x :: setInsert k xs

/-- The C++17 keyword set (`cpp17_keywords`). -/
def cpp17_keywords : List Str :=
  [str "alignas", str "alignof", str "and", str "and_eq", str "asm", str "auto",
   str "bitand", str "bitor", str "bool", str "break",
   str "case", str "catch", str "char", str "char16_t", str "char32_t", str "class",
   str "compl", str "const", str "constexpr", str "const_cast",
   str "continue", str "decltype", str "default", str "delete", str "do",
   str "double", str "dynamic_cast", str "else", str "enum", str "explicit",
   str "export", str "extern", str "false", str "float", str "for", str "friend",
   str "goto", str "if", str "inline", str "int",
   str "long", str "mutable", str "namespace", str "new", str "noexcept",
   str "not", str "not_eq", str "nullptr", str "operator", str "or",
   str "or_eq", str "private", str "protected", str "public", str "register",
   str "reinterpret_cast", str "return", str "short", str "signed", str "sizeof",
   str "static", str "static_assert", str "static_cast", str "struct", str "switch",
   str "template", str "this", str "thread_local", str "throw", str "true",
   str "try", str "typedef", str "typeid", str "typename", str "union",
   str "unsigned", str "using", str "virtual", str "void", str "volatile",
   str "wchar_t", str "while", str "xor", str "xor_eq"]

/-- A user-defined keyword: raw multiline snippet plus ordered
(name, default) parameter pairs (`struct UserKeyword`). -/
structure UserKeyword where
  snippet : Str
  params : List (Str × Str)
deriving Repr, DecidableEq

/-- The macro store: the `std::map<string, UserKeyword>` as a sorted
association list. -/
abbrev Store := List (Str × UserKeyword)

/-! ## Macro Store persistence (`load_user_keywords` / `save_user_keywords`) -/

/-- The marker opening a block in the keyword file. -/
def kwMarker : Str :=
  ['=', '=', '=', 'K', 'E', 'Y', 'W', 'O', 'R', 'D', ':']

/-- The marker opening a parameter line in the keyword file. -/
def paramsMarker : Str :=
  ['=', '=', '=', 'P', 'A', 'R', 'A', 'M', 'S', ':']

/-- The line closing a block in the keyword file. -/
def endMarker : Str :=
  ['=', '=', '=', 'E', 'N', 'D', '=', '=', '=']

/-- Three equals signs, the trailing token of marker lines. -/
def eqMarker : Str := ['=', '=', '=']

/-- One `name=default` item of a parameter list, as the loader parses it:
split at the first `=`, trim both halves, drop entries with an empty name. -/
def parseParamStep (acc : List (Str × Str)) (p : Str) : List (Str × Str) :=
  match strFind '=' p with
  | none => if trim p ≠ [] then acc ++ [(trim p, [])] else acc
  | some eq =>
    let name := trim (substr p 0 eq)
    let d := trim (p.drop (eq + 1))
    if name ≠ [] then acc ++ [(name, d)] else acc

/-- Parsing of one comma-separated `name=default` parameter list, as the
loader's inner loop over `split_csv` does. -/
def parseParams (paramstr : Str) : List (Str × Str) :=
  (split_csv paramstr).foldl parseParamStep []

/-- Loader state: the map built so far plus the in-block accumulation
variables of `load_user_keywords`. -/
structure LoadState where
  out : Store
  current_key : Str
  current_params : List (Str × Str)
  buffer : Str
  in_entry : Bool
deriving Repr, DecidableEq

/-- Initial loader state. -/
def initLoad : LoadState := ⟨[], [], [], [], false⟩

/-- One iteration of the `load_user_keywords` line loop. -/
def loadLine (st : LoadState) (line : Str) : LoadState :=
  if st.in_entry = false then
    if kwMarker.isPrefixOf line then
      match strFind ':' line, rfindStr eqMarker line with
      | some colon, some last =>
        if colon + 1 < last then
          { st with current_key := trim (substr line (colon + 1) (last - (colon + 1))),
                    current_params := [], buffer := [], in_entry := true }
        else st
      | _, _ => st
    else st
  else
    if paramsMarker.isPrefixOf line then
      match strFind ':' line, rfindStr eqMarker line with
      | some colon, some last =>
        if colon + 1 < last then
          let paramstr := trim (substr line (colon + 1) (last - (colon + 1)))
          if paramstr ≠ [] then
            { st with current_params := st.current_params ++ parseParams paramstr }
          else st
        else st
      | _, _ => st
    else if line = endMarker then
      { out := mapInsert (trim st.current_key) ⟨st.buffer, st.current_params⟩ st.out,
        current_key := [], current_params := [], buffer := [], in_entry := false }
    else
      { st with buffer := st.buffer ++ line ++ ['\n'] }

/-- The C++ `load_user_keywords`, over the file's `getline` lines: run the
line loop, then commit a still-open block (best-effort recovery). -/
def load_user_keywords (lines : List Str) : Store :=
  let st := lines.foldl loadLine initLoad
  if st.in_entry = true ∧ st.current_key ≠ [] then
    mapInsert (trim st.current_key) ⟨st.buffer, st.current_params⟩ st.out
  else st.out

/-- The comma-separated parameter text written by `save_user_keywords`
(the writer's first-flag loop: `name=default`, comma-separated). -/
def paramJoin : List (Str × Str) → Str
  | [] => []
  | [p] => p.1 ++ '=' :: p.2
  | p :: q :: rest => p.1 ++ '=' :: (p.2 ++ ',' :: paramJoin (q :: rest))

/-- The lines of one saved block.  The writer emits the raw snippet text and
appends a final newline when the snippet lacks one (so the byte stream's
`getline` decomposition of the snippet part is exactly `getLines snippet`),
then the end marker. -/
def saveEntryLines (k : Str) (uk : UserKeyword) : List Str :=
  (kwMarker ++ k ++ eqMarker) ::
    ((if uk.params ≠ [] then [paramsMarker ++ paramJoin uk.params ++ eqMarker] else []) ++
     getLines uk.snippet ++ [endMarker])

/-- The C++ `save_user_keywords`, as the `getline` lines of the file it
writes (the map is iterated in its sorted order). -/
def save_user_keywords (m : Store) : List Str :=
  m.flatMap (fun kv => saveEntryLines kv.1 kv.2)

/-! ## Placeholder Expander -/

/-- Recursion core of `replace_all`.  When the token matches at the head the
replacement is emitted and scanning resumes after the replaced text, exactly
as the C++ `pos += repl.size()` does; the token is nonempty at every call
site, which makes `rest.drop (token.length - 1)` the text after the match. -/
def replaceAllGo (token repl : Str) : Str → Str
  | [] => []
  | c :: rest =>
    if token.isPrefixOf (c :: rest) then
      repl ++ replaceAllGo token repl (rest.drop (token.length - 1))
    else c :: replaceAllGo token repl rest
termination_by s => s.length
decreasing_by
  · simp only [List.length_cons, List.length_drop]
    omega
  · simp

/-- The C++ `replace_all`: replace every occurrence of `token` in `s` by
`repl`, left to right, never rescanning emitted replacement text. -/
def replace_all (s token repl : Str) : Str :=
  if token = [] then s else replaceAllGo token repl s

/-- The fragment a handler returns (`struct Parts`). -/
structure Parts where
  includes : List Str
  top : List Str
  body : List Str
deriving Repr, DecidableEq

/-- Parameter substitution pass of `parts_from_user_snippet_with_params`:
for each declared parameter in order, the supplied value (or the stored
default) replaces every `{name}` occurrence. -/
def substitute_params (uk : UserKeyword) (values : List (Str × Str)) : Str :=
  uk.params.foldl
    (fun acc pp =>
      let val := match mapFind pp.1 values with
        | some v => v
        | none => pp.2
      replace_all acc ('{' :: pp.1 ++ ['}']) val)
    uk.snippet

/-- First error comment line of the disallowed-`main` fragment. -/
def mainErrLine1 (tag : Str) : Str :=
  str "// (" ++ tag ++ str ") ERROR: user snippet contains 'int main('. This is disallowed for custom keywords."

/-- Second error comment line of the disallowed-`main` fragment. -/
def mainErrLine2 : Str :=
  str "// Please redefine this custom keyword without a main() function."

/-- Origin comment line prepended to an expanded snippet's body. -/
def snippetHeaderLine (tag : Str) : Str :=
  str "// (" ++ tag ++ str ") User-defined snippet (with parameter substitution):"

/-- The entry-point signature that a custom snippet must not contain. -/
def intMainSig : Str := str "int main("

/-- Substring occurrence test, modelling `std::string::find(pat) != npos`. -/
def occursIn (pat : Str) : Str → Bool
  | [] => pat.isPrefixOf []
  | c :: rest => pat.isPrefixOf (c :: rest) || occursIn pat rest

/-- Include/body classification loop of `parts_from_user_snippet_with_params`,
over the substituted text's lines.  Note the `# include` branch takes
`substr(8)` of the trimmed line, exactly as the C++ does. -/
def scanSnippetLines (lines : List Str) : Parts :=
  lines.foldl
    (fun p line =>
      let tline := trim line
      if (str "#include").isPrefixOf tline then
        let rem := trim (tline.drop 8)
        if rem ≠ [] then { p with includes := p.includes ++ [rem] } else p
      else if (str "# include").isPrefixOf tline then
        let rem := trim (tline.drop 8)
        if rem ≠ [] then { p with includes := p.includes ++ [rem] } else p
      else { p with body := p.body ++ [line] })
    ⟨[], [], []⟩

/-- The C++ `parts_from_user_snippet_with_params`. -/
def parts_from_user_snippet_with_params (uk : UserKeyword) (values : List (Str × Str))
    (tag : Str) : Parts :=
  let transformed := substitute_params uk values
  if occursIn intMainSig transformed then
    ⟨[], [], [mainErrLine1 tag, mainErrLine2]⟩
  else
    let p := scanSnippetLines (getLines transformed)
    { p with body := snippetHeaderLine tag :: p.body }

/-! ## Generation Context and collision-safe declaration -/

/-- The per-line mutable generation state (`struct Context`). -/
structure Context where
  vars : List (Str × Str)
  types : List Str
  last_var : Str
  last_type : Str
  meta : List (Str × Str)
deriving Repr, DecidableEq

/-- The empty generation context, as constructed at the start of each input
line's processing. -/
def emptyContext : Context := ⟨[], [], [], [], []⟩

/-- Digit character, as `std::to_string` produces. -/
def digitChar (n : Nat) : Char := Char.ofNat (48 + n)

/-- Fueled decimal rendering (the fuel is structural bookkeeping only; it is
always sufficient at the call site in `toDecimal`). -/
def toDecimalAux : Nat → Nat → Str
  | 0, _ => []
  | fuel + 1, n =>
    if n < 10 then [digitChar n] else toDecimalAux fuel (n / 10) ++ [digitChar (n % 10)]

/-- Decimal rendering of a natural number, as `std::to_string`. -/
def toDecimal (n : Nat) : Str := toDecimalAux (n + 1) n

/-- Candidate name tried by `declare_variable`'s collision loop: the base
name itself, then the base name with suffixes 1, 2, 3, …. -/
def candName (base : Str) : Nat → Str
  | 0 => base
  | k + 1 => base ++ toDecimal (k + 1)

/-- Fueled collision-avoidance loop of `declare_variable` (the fuel is one
more than the number of declared variables, which always suffices). -/
def findFreeGo (vars : List (Str × Str)) (base : Str) : Nat → Nat → Str
  | 0, k => candName base k
  | fuel + 1, k =>
    if (mapFind (candName base k) vars).isSome then findFreeGo vars base fuel (k + 1)
    else candName base k

/-- The final name chosen by `declare_variable` for a requested base name. -/
def findFreeName (vars : List (Str × Str)) (base : Str) : Str :=
  findFreeGo vars base (vars.length + 1) 0

/-- The C++ `declare_variable`: pick the first free candidate name, record
it in the declared-variables map, update `last_var`, and return the
declaration statement text. -/
def declare_variable (ctx : Context) (type base init : Str) : Str × Context :=
  let name := findFreeName ctx.vars base
  (type ++ str " " ++ name ++ str " = " ++ init ++ [';'],
   { ctx with vars := mapInsert name type ctx.vars, last_var := name })

/-! ## Occurrence Resolver -/

/-- Membership of a normalized token in the combined keyword registry. -/
def isKnownKeyword (norm : Str) (store : Store) : Bool :=
  cpp17_keywords.contains norm || (mapFind norm store).isSome

/-- Occurrence-building loop of `main`: walk the tokens with their 0-based
index, keep the normalized form of every recognized token together with its
1-based position. -/
def buildOccurrences (store : Store) : List Str → Nat → List (Str × Nat)
  | [], _ => []
  | t :: ts, i =>
    let norm := normalize_token t
    if norm = [] then buildOccurrences store ts (i + 1)
    else if isKnownKeyword norm store then
      (norm, i + 1) :: buildOccurrences store ts (i + 1)
    else buildOccurrences store ts (i + 1)

/-- The Occurrence Resolver: `main` trims the raw line, tokenizes it, and
builds the occurrence list. -/
def resolve_line (line : Str) (store : Store) : List (Str × Nat) :=
  buildOccurrences store (tokenize (trim line)) 0

/-! ## Program Assembler (`make_program_from_body_lines`) -/

/-- The C++ `normalize_include_for_key`: keep bracketed and quoted forms,
wrap a plain header name in angle brackets. -/
def normalize_include_for_key (raw : Str) : Str :=
  match trim raw with
  | [] => []
  | c :: rest =>
    if c = '<' ∧ (c :: rest).getLast (List.cons_ne_nil c rest) = '>' then c :: rest
    else if c = '"' ∧ (c :: rest).getLast (List.cons_ne_nil c rest) = '"' then c :: rest
    else '<' :: ((c :: rest) ++ ['>'])

/-- One step of the assembler's unique-include loop: normalize the raw
include, skip empty keys and `<iostream>`, insert into the `std::set`. -/
def includeStep (s : List Str) (h : Str) : List Str :=
  let key := normalize_include_for_key h
  if key = [] then s
  else if key = str "<iostream>" then s
  else setInsert key s

/-- The unique-include set built by the assembler. -/
def includeKeySet (extra_includes : List Str) : List Str :=
  extra_includes.foldl includeStep []

/-- The C++ `make_program_from_body_lines`: fixed core include, deduplicated
extra includes in the set's iteration order, top-level declarations, then a
single `main` wrapping the indented body and a `return 0;`. -/
def make_program_from_body_lines (body_lines extra_includes extra_top : List Str) : Str :=
  str "#include <iostream>\n" ++
  (includeKeySet extra_includes).flatMap (fun h => str "#include " ++ h ++ ['\n']) ++
  ['\n'] ++
  extra_top.flatMap (fun t => t ++ ['\n']) ++
  str "\nusing namespace std;\n\nint main(int argc, char *argv[]) \x7b\n" ++
  body_lines.flatMap (fun l => str "    " ++ l ++ ['\n']) ++
  str "    return 0;\n\x7d\n"

/-! ## The `:add` / `:define` flow (name checks and store mutation) -/

/-- Outcome of the interactive definition flow. -/
inductive AddOutcome where
  | emptyName
  | builtinConflict
  | aborted
  | added
deriving Repr, DecidableEq

/-- The `:add`/`:define` command flow of `main`, parameterized by the user's
answers: the entered keyword name, the overwrite answer, the parameter line
and the snippet lines.  The entered name is normalized; an empty name or a
clash with a built-in C++17 keyword aborts without touching the store. -/
def add_define_flow (store : Store) (rawName overwriteAnswer params_line : Str)
    (snippet_lines : List Str) : AddOutcome × Store :=
  let name := normalize_token rawName
  if name = [] then (.emptyName, store)
  else if cpp17_keywords.contains name then (.builtinConflict, store)
  else if (mapFind name store).isSome ∧ ¬(overwriteAnswer = str "y" ∨ overwriteAnswer = str "Y")
  then (.aborted, store)
  else (.added, mapInsert name ⟨joinNl snippet_lines, parseParams params_line⟩ store)

/-! ## Per-line dispatch and EOF handling (main loop, occurrence phase) -/

/-- The C++ `append_parts`: ordered concatenation of a fragment's three
line sequences onto the aggregate. -/
def append_parts (acc p : Parts) : Parts :=
  ⟨acc.includes ++ p.includes, acc.top ++ p.top, acc.body ++ p.body⟩

/-- The interactive input stream: the remaining stdin lines.  `ask` reads one
line (EOF when the stream is exhausted, modelling the `EOFExit` throw of
`prompt_opt`) and substitutes the default for an empty answer. -/
def askLine (stdin : List Str) (deflt : Str) : Option (Str × List Str) :=
  match stdin with
  | [] => none
  | l :: rest => some (if l = [] then deflt else l, rest)

/-- Parameter prompting loop of `generate_parts_for_keyword_occurrence`: one
`ask` per declared parameter, in declared order; `none` models `EOFExit`. -/
def promptParams : List (Str × Str) → List (Str × Str) → List Str →
    Option (List (Str × Str) × List Str)
  | [], values, stdin => some (values, stdin)
  | (pname, pdef) :: ps, values, stdin =>
    match askLine stdin pdef with
    | none => none
    | some (val, stdin') => promptParams ps (mapInsert pname val values) stdin'

/-- The occurrence tag `"occurrence <n> (token <m>)"`. -/
def occTag (n m : Nat) : Str :=
  str "occurrence " ++ toDecimal n ++ str " (token " ++ toDecimal m ++ str ")"

/-- Dispatch of one occurrence (`generate_parts_for_keyword_occurrence`):
a stored user keyword is expanded after prompting for its parameters; any
other keyword is routed to a built-in handler, which is outside the spec's
scope and therefore supplied as an oracle argument (`none` models EOFExit
inside the handler's prompts). -/
def dispatchOccurrence
    (builtinH : Str → Context → Str → List Str → Option (Parts × Context × List Str))
    (store : Store) (ctx : Context) (kw tag : Str) (stdin : List Str) :
    Option (Parts × Context × List Str) :=
  match mapFind kw store with
  | some uk =>
    match promptParams uk.params [] stdin with
    | none => none
    | some (values, stdin') =>
      some (parts_from_user_snippet_with_params uk values tag, ctx, stdin')
  | none => builtinH kw ctx tag stdin

/-- The occurrence loop of `main` (inside the `try` block): dispatch each
occurrence in order, threading the context and aggregating fragments; a
`none` from any dispatch is the `EOFExit` propagating out of the loop. -/
def dispatchLoop
    (builtinH : Str → Context → Str → List Str → Option (Parts × Context × List Str))
    (store : Store) :
    List (Str × Nat) → Nat → Context → Parts → List Str → Option (Parts × List Str)
  | [], _, _, acc, stdin => some (acc, stdin)
  | (kw, pos) :: rest, i, ctx, acc, stdin =>
    match dispatchOccurrence builtinH store ctx kw (occTag (i + 1) pos) stdin with
    | none => none
    | some (p, ctx', stdin') =>
      dispatchLoop builtinH store rest (i + 1) ctx' (append_parts acc p) stdin'

/-- What one input line's occurrence phase ends in: either the assembled
program is displayed and the top-level loop continues with the remaining
stdin, or the `EOFExit` handler runs `return 0` and the whole run
terminates. -/
inductive LineOutcome where
  | displayed (program : Str) (store : Store) (stdin : List Str)
  | exitRun (store : Store)
deriving DecidableEq

/-- The occurrence-processing phase of `main` for one input line
(`Context ctx; Parts aggregated; try … catch (EOFExit) { return 0; }`
followed by assembly and display).  The store is never written in this
phase; the outcome carries it unchanged. -/
def process_line_occurrences
    (builtinH : Str → Context → Str → List Str → Option (Parts × Context × List Str))
    (store : Store) (occs : List (Str × Nat)) (stdin : List Str) : LineOutcome :=
  match dispatchLoop builtinH store occs 0 emptyContext ⟨[], [], []⟩ stdin with
  | none => .exitRun store
  | some (agg, stdin') =>
    .displayed (make_program_from_body_lines agg.body agg.includes agg.top) store stdin'

/-! ## Lemmas: occurrence resolver -/

/-- Qualifying-token predicate of the resolver. -/
def qualifies (store : Store) (t : Str) : Bool :=
  !(normalize_token t).isEmpty && isKnownKeyword (normalize_token t) store

theorem qualifies_eq_true_iff (store : Store) (t : Str) :
    qualifies store t = true ↔
      normalize_token t ≠ [] ∧ isKnownKeyword (normalize_token t) store = true := by
  simp [qualifies, List.isEmpty_iff]

theorem buildOccurrences_eq_filterMap (store : Store) :
    ∀ (ts : List Str) (i : Nat),
      buildOccurrences store ts i =
        (ts.enumFrom i).filterMap
          (fun p => if qualifies store p.2 then some (normalize_token p.2, p.1 + 1) else none) := by
  intro ts
  induction ts with
  | nil => intro i; simp [buildOccurrences]
  | cons t ts ih =>
    intro i
    simp only [buildOccurrences, List.enumFrom, List.filterMap_cons]
    by_cases h0 : normalize_token t = []
    · have hq : qualifies store t = false := by simp [qualifies, h0]
      simp [h0, hq, ih]
    · by_cases h1 : isKnownKeyword (normalize_token t) store
      · have hq : qualifies store t = true :=
          (qualifies_eq_true_iff store t).mpr ⟨h0, h1⟩
        simp [h0, h1, hq, ih]
      · have h1f : isKnownKeyword (normalize_token t) store = false := by
          simpa using h1
        have hq : qualifies store t = false := by simp [qualifies, h1f]
        simp [h0, h1f, hq, ih]

theorem buildOccurrences_pos_gt (store : Store) :
    ∀ (ts : List Str) (i : Nat) (q : Str × Nat), q ∈ buildOccurrences store ts i → i < q.2 := by
  intro ts
  induction ts with
  | nil => intro i q hq; simp [buildOccurrences] at hq
  | cons t ts ih =>
    intro i q hq
    simp only [buildOccurrences] at hq
    by_cases h0 : normalize_token t = []
    · simp only [h0, if_pos rfl] at hq
      exact Nat.lt_of_succ_lt (ih (i + 1) q hq)
    · rw [if_neg h0] at hq
      by_cases h1 : isKnownKeyword (normalize_token t) store
      · rw [if_pos h1] at hq
        rcases List.mem_cons.mp hq with h | h
        · subst h; exact Nat.lt_succ_self i
        · exact Nat.lt_of_succ_lt (ih (i + 1) q h)
      · rw [if_neg h1] at hq
        exact Nat.lt_of_succ_lt (ih (i + 1) q hq)

theorem buildOccurrences_pairwise (store : Store) :
    ∀ (ts : List Str) (i : Nat),
      ((buildOccurrences store ts i).map Prod.snd).Pairwise (· < ·) := by
  intro ts
  induction ts with
  | nil => intro i; simp [buildOccurrences]
  | cons t ts ih =>
    intro i
    simp only [buildOccurrences]
    by_cases h0 : normalize_token t = []
    · simpa [h0] using ih (i + 1)
    · by_cases h1 : isKnownKeyword (normalize_token t) store
      · rw [if_neg h0, if_pos h1]
        simp only [List.map_cons, List.pairwise_cons]
        refine ⟨?_, ih (i + 1)⟩
        intro b hb
        rcases List.mem_map.mp hb with ⟨q, hq, rfl⟩
        exact buildOccurrences_pos_gt store ts (i + 1) q hq
      · rw [if_neg h0, if_neg h1]
        exact ih (i + 1)

theorem buildOccurrences_length (store : Store) :
    ∀ (ts : List Str) (i : Nat),
      (buildOccurrences store ts i).length = (ts.filter (qualifies store)).length := by
  intro ts
  induction ts with
  | nil => intro i; simp [buildOccurrences]
  | cons t ts ih =>
    intro i
    simp only [buildOccurrences, List.filter_cons]
    by_cases h0 : normalize_token t = []
    · have hq : qualifies store t = false := by simp [qualifies, h0]
      simp [h0, hq, ih]
    · by_cases h1 : isKnownKeyword (normalize_token t) store
      · have hq : qualifies store t = true :=
          (qualifies_eq_true_iff store t).mpr ⟨h0, h1⟩
        simp [h0, h1, hq, ih]
      · have h1f : isKnownKeyword (normalize_token t) store = false := by
          simpa using h1
        have hq : qualifies store t = false := by simp [qualifies, h1f]
        simp [h0, h1f, hq, ih]

/-! ## Claim C2 — occurrence resolver contract -/

/-- C2: for every input line, the resolver's occurrence list is exactly one
(name, 1-based position) pair per whitespace token whose normalized form is
nonempty and known (builtin or macro), in input order with duplicates kept;
the positions are strictly increasing, and the list's length is the number
of qualifying tokens. -/
theorem claim_c2_resolver (line : Str) (store : Store) :
    resolve_line line store =
      ((tokenize (trim line)).enumFrom 0).filterMap
        (fun p => if qualifies store p.2 then some (normalize_token p.2, p.1 + 1) else none)
    ∧ ((resolve_line line store).map Prod.snd).Pairwise (· < ·)
    ∧ (resolve_line line store).length =
        ((tokenize (trim line)).filter (qualifies store)).length := by
  refine ⟨?_, ?_, ?_⟩
  · exact buildOccurrences_eq_filterMap store (tokenize (trim line)) 0
  · exact buildOccurrences_pairwise store (tokenize (trim line)) 0
  · exact buildOccurrences_length store (tokenize (trim line)) 0

/-! ## Lemmas: decimal rendering and the collision-avoidance loop -/

/-- Decimal value of a digit string (left inverse of `toDecimal`). -/
def decVal (s : Str) : Nat := s.foldl (fun acc c => 10 * acc + (c.toNat - 48)) 0

theorem digitChar_toNat : ∀ r, r < 10 → (digitChar r).toNat = 48 + r := by decide

theorem decVal_append_digit (a : Str) (c : Char) :
    decVal (a ++ [c]) = 10 * decVal a + (c.toNat - 48) := by
  simp [decVal, List.foldl_append]

theorem decVal_toDecimalAux : ∀ (fuel n : Nat), n < fuel → decVal (toDecimalAux fuel n) = n := by
  intro fuel
  induction fuel with
  | zero => intro n h; omega
  | succ fuel ih =>
    intro n h
    by_cases h10 : n < 10
    · simp [toDecimalAux, h10, decVal, digitChar_toNat n h10]
    · have hlt : n / 10 < fuel := by
        have h1 : n / 10 < n := Nat.div_lt_self (by omega) (by omega)
        omega
      rw [toDecimalAux, if_neg h10, decVal_append_digit, ih (n / 10) hlt,
          digitChar_toNat (n % 10) (Nat.mod_lt n (by omega))]
      omega

theorem decVal_toDecimal (n : Nat) : decVal (toDecimal n) = n :=
  decVal_toDecimalAux (n + 1) n (Nat.lt_succ_self n)

theorem toDecimal_ne_nil (n : Nat) : toDecimal n ≠ [] := by
  unfold toDecimal toDecimalAux
  by_cases h10 : n < 10
  · simp [h10]
  · simp [h10]

theorem toDecimal_inj {a b : Nat} (h : toDecimal a = toDecimal b) : a = b := by
  have := decVal_toDecimal a
  rw [h, decVal_toDecimal] at this
  omega

theorem candName_inj (base : Str) : Function.Injective (candName base) := by
  intro i j h
  match i, j with
  | 0, 0 => rfl
  | 0, j + 1 =>
    exfalso
    have hlen := congrArg List.length h
    simp only [candName, List.length_append] at hlen
    have hz : (toDecimal (j + 1)).length = 0 := by omega
    exact toDecimal_ne_nil (j + 1) (List.length_eq_zero.mp hz)
  | i + 1, 0 =>
    exfalso
    have hlen := congrArg List.length h
    simp only [candName, List.length_append] at hlen
    have hz : (toDecimal (i + 1)).length = 0 := by omega
    exact toDecimal_ne_nil (i + 1) (List.length_eq_zero.mp hz)
  | i + 1, j + 1 =>
    have h2 : toDecimal (i + 1) = toDecimal (j + 1) := by
      simp only [candName] at h
      exact List.append_cancel_left h
    have := toDecimal_inj h2
    omega

theorem mapFind_isSome_mem {α : Type} (k : Str) :
    ∀ (l : List (Str × α)), (mapFind k l).isSome = true → k ∈ l.map Prod.fst := by
  intro l
  induction l with
  | nil => intro h; simp [mapFind] at h
  | cons p rest ih =>
    rcases p with ⟨k1, v1⟩
    intro h
    simp only [mapFind] at h
    by_cases hk : k1 = k
    · simp only [List.map_cons, List.mem_cons]
      exact Or.inl hk.symm
    · rw [if_neg hk] at h
      simp only [List.map_cons, List.mem_cons]
      exact Or.inr (ih h)

theorem mapFind_mapInsert_self {α : Type} (k : Str) (v : α) :
    ∀ (l : List (Str × α)), mapFind k (mapInsert k v l) = some v := by
  intro l
  induction l with
  | nil => simp [mapInsert, mapFind]
  | cons p rest ih =>
    rcases p with ⟨k1, v1⟩
    simp only [mapInsert]
    by_cases h1 : ltStr k k1
    · rw [if_pos h1]
      simp [mapFind]
    · rw [if_neg h1]
      by_cases h2 : k = k1
      · rw [if_pos h2]
        simp [mapFind]
      · rw [if_neg h2]
        simp only [mapFind]
        rw [if_neg (fun he : k1 = k => h2 he.symm)]
        exact ih

theorem mapFind_mapInsert_ne {α : Type} (k k' : Str) (v : α) (h : k' ≠ k) :
    ∀ (l : List (Str × α)), mapFind k' (mapInsert k v l) = mapFind k' l := by
  intro l
  induction l with
  | nil =>
    simp only [mapInsert, mapFind]
    rw [if_neg (fun he : k = k' => h he.symm)]
  | cons p rest ih =>
    rcases p with ⟨k1, v1⟩
    simp only [mapInsert]
    by_cases h1 : ltStr k k1
    · rw [if_pos h1]
      simp only [mapFind]
      rw [if_neg (fun he : k = k' => h he.symm)]
    · rw [if_neg h1]
      by_cases h2 : k = k1
      · rw [if_pos h2]
        simp only [mapFind]
        rw [if_neg (fun he : k = k' => h he.symm),
            if_neg (fun he : k1 = k' => h (he.symm.trans h2.symm))]
      · rw [if_neg h2]
        simp only [mapFind]
        by_cases h3 : k1 = k'
        · rw [if_pos h3, if_pos h3]
        · rw [if_neg h3, if_neg h3]
          exact ih

theorem exists_free_candidate (vars : List (Str × Str)) (base : Str) :
    ∃ i, i ≤ vars.length ∧ mapFind (candName base i) vars = none := by
  by_contra hc
  push_neg at hc
  have hmem : ∀ i ≤ vars.length, candName base i ∈ vars.map Prod.fst := by
    intro i hi
    have hne := hc i hi
    exact mapFind_isSome_mem _ _ (Option.ne_none_iff_isSome.mp hne)
  have hsub : (Finset.range (vars.length + 1)).image (candName base) ⊆
      (vars.map Prod.fst).toFinset := by
    intro x hx
    rcases Finset.mem_image.mp hx with ⟨i, hi, rfl⟩
    exact List.mem_toFinset.mpr (hmem i (Nat.lt_succ_iff.mp (Finset.mem_range.mp hi)))
  have hcard : ((Finset.range (vars.length + 1)).image (candName base)).card =
      vars.length + 1 := by
    rw [Finset.card_image_of_injective _ (candName_inj base), Finset.card_range]
  have hle := Finset.card_le_card hsub
  have hfl : (vars.map Prod.fst).toFinset.card ≤ vars.length := by
    calc (vars.map Prod.fst).toFinset.card ≤ (vars.map Prod.fst).length :=
          (vars.map Prod.fst).toFinset_card_le
      _ = vars.length := List.length_map _ _
  omega

theorem findFreeGo_free (vars : List (Str × Str)) (base : Str) :
    ∀ (fuel k : Nat), (∃ i, i ≤ fuel ∧ mapFind (candName base (k + i)) vars = none) →
      mapFind (findFreeGo vars base fuel k) vars = none := by
  intro fuel
  induction fuel with
  | zero =>
    intro k ⟨i, hi, hfree⟩
    have : i = 0 := Nat.le_zero.mp hi
    subst this
    simpa [findFreeGo] using hfree
  | succ fuel ih =>
    intro k ⟨i, hi, hfree⟩
    simp only [findFreeGo]
    by_cases hocc : (mapFind (candName base k) vars).isSome
    · rw [if_pos hocc]
      have hi0 : i ≠ 0 := by
        intro h0
        subst h0
        simp only [Nat.add_zero] at hfree
        rw [hfree] at hocc
        simp at hocc
      refine ih (k + 1) ⟨i - 1, by omega, ?_⟩
      have : k + 1 + (i - 1) = k + i := by omega
      rw [this]
      exact hfree
    · rw [if_neg hocc]
      exact Option.not_isSome_iff_eq_none.mp hocc

theorem findFreeName_free (vars : List (Str × Str)) (base : Str) :
    mapFind (findFreeName vars base) vars = none := by
  rcases exists_free_candidate vars base with ⟨i, hi, hfree⟩
  exact findFreeGo_free vars base (vars.length + 1) 0
    ⟨i, by omega, by simpa using hfree⟩

theorem findFreeName_of_base_free (vars : List (Str × Str)) (base : Str)
    (h : mapFind base vars = none) : findFreeName vars base = base := by
  unfold findFreeName
  simp only [findFreeGo, candName, h]
  simp

theorem findFreeName_of_base_taken (vars : List (Str × Str)) (base : Str)
    (h0 : (mapFind base vars).isSome = true)
    (h1 : mapFind (base ++ toDecimal 1) vars = none) :
    findFreeName vars base = base ++ toDecimal 1 := by
  have hne : vars ≠ [] := by
    intro he
    subst he
    simp [mapFind] at h0
  obtain ⟨p, rest, rfl⟩ : ∃ p rest, vars = p :: rest := by
    cases vars with
    | nil => exact absurd rfl hne
    | cons p rest => exact ⟨p, rest, rfl⟩
  unfold findFreeName
  simp only [List.length_cons]
  rw [findFreeGo, if_pos (by simpa [candName] using h0)]
  rw [findFreeGo, if_neg (by simp [candName, h1])]
  rfl

/-! ## Claim C5 — collision-safe variable declaration -/

/-- C5: within one generation context, a second declaration with the same
requested base name gets a distinct final name found by appending the first
free integer suffix starting at 1; each declaration records the final name
(mapped to its type) in the declared-variables map and makes it the last
variable, and the returned statement uses the final name. -/
theorem claim_c5_declare (ctx : Context) (t1 t2 b i1 i2 : Str) :
    ((declare_variable ctx t1 b i1).2).last_var ≠
      ((declare_variable ((declare_variable ctx t1 b i1).2) t2 b i2).2).last_var
    ∧ mapFind ((declare_variable ctx t1 b i1).2).last_var
        ((declare_variable ctx t1 b i1).2).vars = some t1
    ∧ mapFind ((declare_variable ((declare_variable ctx t1 b i1).2) t2 b i2).2).last_var
        ((declare_variable ((declare_variable ctx t1 b i1).2) t2 b i2).2).vars = some t2
    ∧ (declare_variable ctx t1 b i1).1 =
        t1 ++ str " " ++ ((declare_variable ctx t1 b i1).2).last_var ++ str " = " ++ i1 ++ [';']
    ∧ (mapFind b ctx.vars = none → mapFind (b ++ toDecimal 1) ctx.vars = none →
        ((declare_variable ctx t1 b i1).2).last_var = b ∧
        ((declare_variable ((declare_variable ctx t1 b i1).2) t2 b i2).2).last_var =
          b ++ toDecimal 1) := by
  have hname1 : ((declare_variable ctx t1 b i1).2).last_var = findFreeName ctx.vars b := rfl
  have hvars1 : ((declare_variable ctx t1 b i1).2).vars =
      mapInsert (findFreeName ctx.vars b) t1 ctx.vars := rfl
  have hname2 : ((declare_variable ((declare_variable ctx t1 b i1).2) t2 b i2).2).last_var =
      findFreeName (mapInsert (findFreeName ctx.vars b) t1 ctx.vars) b := rfl
  refine ⟨?_, ?_, ?_, rfl, ?_⟩
  · rw [hname1, hname2]
    intro he
    have hfree := findFreeName_free (mapInsert (findFreeName ctx.vars b) t1 ctx.vars) b
    rw [← he, mapFind_mapInsert_self] at hfree
    exact Option.noConfusion hfree
  · rw [hname1, hvars1]
    exact mapFind_mapInsert_self _ _ _
  · exact mapFind_mapInsert_self _ _ _
  · intro hb hb1
    have h1 : ((declare_variable ctx t1 b i1).2).last_var = b := by
      rw [hname1, findFreeName_of_base_free ctx.vars b hb]
    refine ⟨h1, ?_⟩
    rw [hname2, findFreeName_of_base_free ctx.vars b hb]
    apply findFreeName_of_base_taken
    · rw [mapFind_mapInsert_self]
      rfl
    · have hne : b ++ toDecimal 1 ≠ b := by
        intro he
        have hlen := congrArg List.length he
        simp only [List.length_append] at hlen
        have hz : (toDecimal 1).length = 0 := by omega
        exact toDecimal_ne_nil 1 (List.length_eq_zero.mp hz)
      rw [mapFind_mapInsert_ne _ _ _ hne]
      exact hb1

/-- Witness for C5: declaring `x` twice in an empty context yields final
names `x` and `x1`. -/
theorem claim_c5_witness :
    ((declare_variable emptyContext (str "int") (str "x") (str "0")).2).last_var ≠
      ((declare_variable ((declare_variable emptyContext (str "int") (str "x") (str "0")).2)
        (str "int") (str "x") (str "1")).2).last_var
    ∧ ((declare_variable emptyContext (str "int") (str "x") (str "0")).2).last_var = str "x"
    ∧ ((declare_variable ((declare_variable emptyContext (str "int") (str "x") (str "0")).2)
        (str "int") (str "x") (str "1")).2).last_var = str "x" ++ toDecimal 1 := by
  have h := claim_c5_declare emptyContext (str "int") (str "int") (str "x") (str "0") (str "1")
  refine ⟨h.1, ?_, ?_⟩
  · exact (h.2.2.2.2 (by decide) (by decide)).1
  · exact (h.2.2.2.2 (by decide) (by decide)).2

/-! ## Lemmas: lexicographic order and ordered-set insertion -/

theorem ltStr_irrefl : ∀ (a : Str), ltStr a a = false := by
  intro a
  induction a with
  | nil => rfl
  | cons c a ih => simp [ltStr, ih]

theorem ltStr_trans : ∀ (a b c : Str), ltStr a b = true → ltStr b c = true → ltStr a c = true := by
  intro a
  induction a with
  | nil =>
    intro b c h1 h2
    cases b with
    | nil => exact absurd h1 (by simp [ltStr])
    | cons y bs =>
      cases c with
      | nil => exact absurd h2 (by simp [ltStr])
      | cons z cs => simp [ltStr]
  | cons x as ih =>
    intro b c h1 h2
    cases b with
    | nil => exact absurd h1 (by simp [ltStr])
    | cons y bs =>
      cases c with
      | nil => exact absurd h2 (by simp [ltStr])
      | cons z cs =>
        simp only [ltStr] at h1 h2 ⊢
        rcases lt_trichotomy x y with hxy | hxy | hxy
        · rcases lt_trichotomy y z with hyz | hyz | hyz
          · simp [lt_trans hxy hyz]
          · subst hyz
            simp [hxy]
          · rw [if_neg (lt_asymm hyz), if_pos hyz] at h2
            exact Bool.noConfusion h2
        · subst hxy
          rw [if_neg (lt_irrefl x), if_neg (lt_irrefl x)] at h1
          rcases lt_trichotomy x z with hyz | hyz | hyz
          · simp [hyz]
          · subst hyz
            simp only [lt_irrefl, if_false]
            rw [if_neg (lt_irrefl x), if_neg (lt_irrefl x)] at h2
            exact ih bs cs h1 h2
          · rw [if_neg (lt_asymm hyz), if_pos hyz] at h2
            exact Bool.noConfusion h2
        · rw [if_neg (lt_asymm hxy), if_pos hxy] at h1
          exact Bool.noConfusion h1

theorem ltStr_connex : ∀ (a b : Str), ltStr a b = false → a ≠ b → ltStr b a = true := by
  intro a
  induction a with
  | nil =>
    intro b h1 h2
    cases b with
    | nil => exact absurd rfl h2
    | cons y bs => simp [ltStr] at h1
  | cons x as ih =>
    intro b h1 h2
    cases b with
    | nil => simp [ltStr]
    | cons y bs =>
      simp only [ltStr] at h1 ⊢
      rcases lt_trichotomy x y with hxy | hxy | hxy
      · rw [if_pos hxy] at h1
        exact Bool.noConfusion h1
      · subst hxy
        rw [if_neg (lt_irrefl x), if_neg (lt_irrefl x)] at h1 ⊢
        exact ih bs h1 (fun he => h2 (by rw [he]))
      · simp [hxy]

theorem mem_setInsert (k : Str) : ∀ (l : List Str) (x : Str),
    x ∈ setInsert k l ↔ x = k ∨ x ∈ l := by
  intro l
  induction l with
  | nil => intro x; simp [setInsert]
  | cons y ys ih =>
    intro x
    simp only [setInsert]
    by_cases h1 : ltStr k y
    · rw [if_pos h1]
      simp only [List.mem_cons]
    · rw [if_neg h1]
      by_cases h2 : k = y
      · rw [if_pos h2]
        subst h2
        simp only [List.mem_cons]
        tauto
      · rw [if_neg h2]
        simp only [List.mem_cons, ih]
        tauto

theorem setInsert_pairwise (k : Str) : ∀ (l : List Str),
    l.Pairwise (fun a b => ltStr a b = true) →
    (setInsert k l).Pairwise (fun a b => ltStr a b = true) := by
  intro l
  induction l with
  | nil => intro _; simp [setInsert]
  | cons y ys ih =>
    intro h
    rcases List.pairwise_cons.mp h with ⟨hy, hys⟩
    simp only [setInsert]
    by_cases h1 : ltStr k y
    · rw [if_pos h1]
      refine List.pairwise_cons.mpr ⟨?_, h⟩
      intro b hb
      rcases List.mem_cons.mp hb with rfl | hb2
      · exact h1
      · exact ltStr_trans k y b h1 (hy b hb2)
    · rw [if_neg h1]
      by_cases h2 : k = y
      · rw [if_pos h2]
        exact h
      · rw [if_neg h2]
        refine List.pairwise_cons.mpr ⟨?_, ih hys⟩
        intro b hb
        rcases (mem_setInsert k ys b).mp hb with hbk | hb2
        · rw [hbk]
          exact ltStr_connex k y (Bool.not_eq_true _ ▸ eq_false_of_ne_true h1) h2
        · exact hy b hb2

theorem mem_foldl_includeStep : ∀ (l acc : List Str) (x : Str),
    x ∈ List.foldl includeStep acc l ↔
      x ∈ acc ∨ ∃ h, h ∈ l ∧ normalize_include_for_key h = x ∧
        x ≠ [] ∧ x ≠ str "<iostream>" := by
  intro l
  induction l with
  | nil => intro acc x; simp
  | cons hd tl ih =>
    intro acc x
    simp only [List.foldl_cons, List.mem_cons]
    rw [ih]
    constructor
    · intro hcase
      rcases hcase with hacc | ⟨h, hh, hn, hne, hni⟩
      · unfold includeStep at hacc
        by_cases h1 : normalize_include_for_key hd = []
        · rw [if_pos h1] at hacc
          exact Or.inl hacc
        · rw [if_neg h1] at hacc
          by_cases h2 : normalize_include_for_key hd = str "<iostream>"
          · rw [if_pos h2] at hacc
            exact Or.inl hacc
          · rw [if_neg h2] at hacc
            rcases (mem_setInsert _ acc x).mp hacc with hx | hx
            · refine Or.inr ⟨hd, Or.inl rfl, hx.symm, ?_, ?_⟩
              · rw [hx]; exact h1
              · rw [hx]; exact h2
            · exact Or.inl hx
      · exact Or.inr ⟨h, Or.inr hh, hn, hne, hni⟩
    · intro hcase
      rcases hcase with hacc | ⟨h, hh, hn, hne, hni⟩
      · left
        simp only [includeStep]
        split_ifs
        · exact hacc
        · exact hacc
        · exact (mem_setInsert _ acc x).mpr (Or.inr hacc)
      · rcases hh with rfl | hh2
        · left
          unfold includeStep
          rw [if_neg (by rw [hn]; exact hne), if_neg (by rw [hn]; exact hni)]
          exact (mem_setInsert _ acc x).mpr (Or.inl hn.symm)
        · exact Or.inr ⟨h, hh2, hn, hne, hni⟩

theorem foldl_includeStep_pairwise : ∀ (l acc : List Str),
    acc.Pairwise (fun a b => ltStr a b = true) →
    (List.foldl includeStep acc l).Pairwise (fun a b => ltStr a b = true) := by
  intro l
  induction l with
  | nil => intro acc h; simpa using h
  | cons hd tl ih =>
    intro acc h
    simp only [List.foldl_cons]
    apply ih
    simp only [includeStep]
    split_ifs
    · exact h
    · exact h
    · exact setInsert_pairwise _ acc h

theorem includeKeySet_pairwise (extra_includes : List Str) :
    (includeKeySet extra_includes).Pairwise (fun a b => ltStr a b = true) :=
  foldl_includeStep_pairwise extra_includes [] (List.Pairwise.nil)

theorem includeKeySet_nodup (extra_includes : List Str) :
    (includeKeySet extra_includes).Nodup := by
  apply (includeKeySet_pairwise extra_includes).imp
  intro a b hab he
  rw [he] at hab
  rw [ltStr_irrefl b] at hab
  exact Bool.noConfusion hab

/-! ## Lemmas: `replace_all` and line handling -/

theorem replaceAllGo_nil (token repl : Str) : replaceAllGo token repl [] = [] := by
  simp [replaceAllGo]

theorem replaceAllGo_cons_of_pos (token repl : Str) (c : Char) (rest : Str)
    (h : token.isPrefixOf (c :: rest) = true) :
    replaceAllGo token repl (c :: rest) =
      repl ++ replaceAllGo token repl (rest.drop (token.length - 1)) := by
  rw [replaceAllGo]
  simp [h]

theorem replaceAllGo_cons_of_neg (token repl : Str) (c : Char) (rest : Str)
    (h : token.isPrefixOf (c :: rest) = false) :
    replaceAllGo token repl (c :: rest) = c :: replaceAllGo token repl rest := by
  rw [replaceAllGo]
  simp [h]

theorem occursIn_false_suffix (token : Str) :
    ∀ (u : Str), occursIn token u = false → ∀ s', s' <:+ u → token.isPrefixOf s' = false := by
  intro u
  induction u with
  | nil =>
    intro h s' hs
    rw [List.suffix_nil.mp hs]
    simpa [occursIn] using h
  | cons c rest ih =>
    intro h s' hs
    rw [occursIn, Bool.or_eq_false_iff] at h
    rcases List.suffix_cons_iff.mp hs with rfl | h2
    · exact h.1
    · exact ih h.2 s' h2

theorem replaceAllGo_no_match (token repl : Str) :
    ∀ (s : Str), occursIn token s = false → replaceAllGo token repl s = s := by
  intro s
  induction s with
  | nil => intro h; exact replaceAllGo_nil token repl
  | cons c rest ih =>
    intro h
    rw [occursIn, Bool.or_eq_false_iff] at h
    rw [replaceAllGo_cons_of_neg token repl c rest h.1, ih h.2]

theorem prefixOf_append_of_le (t : Str) :
    ∀ (a b : Str), t.length ≤ a.length → t.isPrefixOf (a ++ b) = t.isPrefixOf a := by
  induction t with
  | nil => intro a b h; simp [List.isPrefixOf]
  | cons x t ih =>
    intro a b h
    cases a with
    | nil => simp at h
    | cons y a' =>
      simp only [List.cons_append, List.isPrefixOf, List.append_eq]
      rw [ih a' b (by simpa using h)]

theorem replaceAllGo_append (token repl w : Str) :
    ∀ (v : Str), (∀ v', v' <:+ v → v' ≠ [] → token.isPrefixOf (v' ++ w) = false) →
      replaceAllGo token repl (v ++ w) = v ++ replaceAllGo token repl w := by
  intro v
  induction v with
  | nil => intro _; simp
  | cons c v' ih =>
    intro h
    have hhead : token.isPrefixOf ((c :: v') ++ w) = false :=
      h (c :: v') (List.suffix_refl _) (List.cons_ne_nil c v')
    rw [List.cons_append, replaceAllGo_cons_of_neg token repl c (v' ++ w) (by simpa using hhead)]
    rw [ih (fun v'' hs hne => h v'' (hs.trans (List.suffix_cons c v')) hne)]
    rfl

theorem getLines_snoc_nl : ∀ (u : Str), ('\n' : Char) ∉ u → getLines (u ++ ['\n']) = [u] := by
  intro u
  induction u with
  | nil => intro _; simp [getLines, splitCh]
  | cons c u' ih =>
    intro h
    have hc : c ≠ '\n' := fun he => h (he ▸ List.mem_cons_self c u')
    have h' : ('\n' : Char) ∉ u' := fun hm => h (List.mem_cons_of_mem c hm)
    simp only [getLines, splitCh, List.cons_append, List.append_eq] at ih ⊢
    rw [if_neg hc, ih h']

theorem trim_cons_snoc (a b : Char) (mid : Str)
    (ha : isSpaceC a = false) (hb : isSpaceC b = false) :
    trim (a :: (mid ++ [b])) = a :: (mid ++ [b]) := by
  unfold trim
  rw [List.dropWhile_cons, if_neg (by simp [ha])]
  rw [List.reverse_cons, List.reverse_append]
  simp only [List.reverse_cons, List.reverse_nil, List.nil_append, List.cons_append]
  rw [List.dropWhile_cons, if_neg (by simp [hb])]
  simp [List.reverse_append]

/-! ## Lemmas: trim stability -/

theorem trim_length_le (s : Str) : (trim s).length ≤ s.length := by
  unfold trim
  calc ((s.dropWhile isSpaceC).reverse.dropWhile isSpaceC).reverse.length
      = ((s.dropWhile isSpaceC).reverse.dropWhile isSpaceC).length := List.length_reverse _
    _ ≤ (s.dropWhile isSpaceC).reverse.length := (List.dropWhile_suffix isSpaceC).length_le
    _ = (s.dropWhile isSpaceC).length := List.length_reverse _
    _ ≤ s.length := (List.dropWhile_suffix isSpaceC).length_le

theorem trim_stable_head {c : Char} {l : Str} (h : trim (c :: l) = c :: l) :
    isSpaceC c = false := by
  by_contra hsp
  have hsp' : isSpaceC c = true := by
    cases hc : isSpaceC c
    · exact absurd hc hsp
    · rfl
  have h1 : (c :: l).dropWhile isSpaceC = l.dropWhile isSpaceC := by
    rw [List.dropWhile_cons, if_pos hsp']
  have h2 : (trim (c :: l)).length ≤ l.length := by
    unfold trim
    rw [h1]
    calc ((l.dropWhile isSpaceC).reverse.dropWhile isSpaceC).reverse.length
        = ((l.dropWhile isSpaceC).reverse.dropWhile isSpaceC).length := List.length_reverse _
      _ ≤ (l.dropWhile isSpaceC).reverse.length := (List.dropWhile_suffix isSpaceC).length_le
      _ = (l.dropWhile isSpaceC).length := List.length_reverse _
      _ ≤ l.length := (List.dropWhile_suffix isSpaceC).length_le
  rw [h] at h2
  simp at h2

theorem getLast_suffix_eq {s' s : Str} (h : s' <:+ s) (hne : s' ≠ []) (hne2 : s ≠ []) :
    s.getLast hne2 = s'.getLast hne := by
  rcases h with ⟨t, rfl⟩
  exact List.getLast_append' t s' hne

theorem trim_stable_last {s : Str} (hne : s ≠ []) (h : trim s = s) :
    isSpaceC (s.getLast hne) = false := by
  by_contra hsp
  have hsp' : isSpaceC (s.getLast hne) = true := by
    cases hc : isSpaceC (s.getLast hne)
    · exact absurd hc hsp
    · rfl
  set s1 := s.dropWhile isSpaceC with hs1
  have hsuf : s1 <:+ s := List.dropWhile_suffix isSpaceC
  by_cases h1 : s1 = []
  · have h2 : trim s = [] := by
      unfold trim
      rw [← hs1, h1]
      rfl
    rw [h] at h2
    exact hne h2
  · have hlast : s1.getLast h1 = s.getLast hne := (getLast_suffix_eq hsuf h1 hne).symm
    have hrev : s1.reverse = s1.getLast h1 :: s1.reverse.tail := by
      rw [← List.head_reverse (by simpa using h1)]
      exact (List.head_cons_tail _ _).symm
    have h3 : (trim s).length < s.length := by
      unfold trim
      rw [← hs1]
      have h4 : s1.reverse.dropWhile isSpaceC = s1.reverse.tail.dropWhile isSpaceC := by
        rw [hrev, List.dropWhile_cons, if_pos (by rw [hlast]; exact hsp')]
        rfl
      calc (s1.reverse.dropWhile isSpaceC).reverse.length
          = (s1.reverse.dropWhile isSpaceC).length := List.length_reverse _
        _ = (s1.reverse.tail.dropWhile isSpaceC).length := by rw [h4]
        _ ≤ s1.reverse.tail.length := (List.dropWhile_suffix isSpaceC).length_le
        _ = s1.reverse.length - 1 := by rw [List.length_tail]
        _ < s1.reverse.length := by
            have : 0 < s1.reverse.length := by
              simpa [List.length_reverse] using List.length_pos.mpr h1
            omega
        _ = s1.length := List.length_reverse _
        _ ≤ s.length := hsuf.length_le
    rw [h] at h3
    exact lt_irrefl _ h3

theorem trim_eq_self_of_ends {s : Str} (hne : s ≠ [])
    (hh : isSpaceC (s.head hne) = false)
    (hl : isSpaceC (s.getLast hne) = false) : trim s = s := by
  cases s with
  | nil => exact absurd rfl hne
  | cons c l =>
    rcases List.eq_nil_or_concat l with rfl | ⟨mid, d, rfl⟩
    · simp only [List.head_cons] at hh
      unfold trim
      rw [List.dropWhile_cons, if_neg (by simp [hh])]
      simp only [List.reverse_cons, List.reverse_nil, List.nil_append, List.dropWhile_nil]
      rw [List.dropWhile_cons, if_neg (by simp [hh])]
      rfl
    · simp only [List.concat_eq_append] at *
      have hh' : isSpaceC c = false := by simpa using hh
      have hl' : isSpaceC d = false := by
        have h5 : (c :: (mid ++ [d])).getLast? = some d := by
          rw [show c :: (mid ++ [d]) = (c :: mid) ++ [d] from rfl]
          exact List.getLast?_concat _
        have h7 := List.getLast?_eq_getLast (c :: (mid ++ [d])) (by simp)
        rw [h7] at h5
        have h8 := Option.some.inj h5
        rwa [h8] at hl
      exact trim_cons_snoc c d mid hh' hl'

/-! ## Lemmas: loader line parsing -/

theorem getLast?_filter_range (P : Nat → Bool) :
    ∀ (m j : Nat), j < m → P j = true → (∀ i, j < i → i < m → P i = false) →
      ((List.range m).filter P).getLast? = some j := by
  intro m
  induction m with
  | zero => intro j hj; omega
  | succ m ih =>
    intro j hj hPj hmax
    by_cases hm : j = m
    · subst hm
      rw [List.range_succ, List.filter_append]
      simp only [List.filter_cons, hPj, List.filter_nil, if_true]
      exact List.getLast?_concat _
    · have hjm : j < m := by omega
      have hPm : P m = false := hmax m (by omega) (Nat.lt_succ_self m)
      rw [List.range_succ, List.filter_append]
      simp only [List.filter_cons, hPm, List.filter_nil]
      rw [if_neg (by simp)]
      rw [List.append_nil]
      exact ih j hjm hPj (fun i h1 h2 => hmax i h1 (by omega))

theorem rfindStr_eq_of_trailing (a : Str) :
    rfindStr eqMarker (a ++ eqMarker) = some a.length := by
  unfold rfindStr
  apply getLast?_filter_range
  · simp [eqMarker]
    omega
  · rw [List.drop_left a eqMarker]
    exact List.isPrefixOf_iff_prefix.mpr (List.prefix_refl _)
  · intro i h1 h2
    cases hP : eqMarker.isPrefixOf ((a ++ eqMarker).drop i)
    · rfl
    · exfalso
      have hpre := List.isPrefixOf_iff_prefix.mp hP
      have hlen := hpre.length_le
      rw [List.length_drop, List.length_append] at hlen
      have h3 : eqMarker.length = 3 := rfl
      rw [h3] at hlen
      have h4 : (eqMarker : Str).length = 3 := rfl
      simp only [h4] at h2
      omega

theorem loadLine_kwLine (st : LoadState) (hst : st.in_entry = false) (name : Str)
    (hne : name ≠ []) :
    loadLine st ((kwMarker ++ name) ++ eqMarker) =
      { st with current_key := trim name, current_params := [], buffer := [],
                in_entry := true } := by
  unfold loadLine
  rw [hst]
  rw [if_pos rfl]
  rw [if_pos (by
    apply List.isPrefixOf_iff_prefix.mpr
    rw [List.append_assoc]
    exact List.prefix_append kwMarker (name ++ eqMarker))]
  have hfind : strFind ':' ((kwMarker ++ name) ++ eqMarker) = some 10 := rfl
  have hrfind : rfindStr eqMarker ((kwMarker ++ name) ++ eqMarker) =
      some (11 + name.length) := by
    rw [rfindStr_eq_of_trailing (kwMarker ++ name)]
    simp only [List.length_append]
    rw [show (kwMarker : Str).length = 11 from rfl]
  rw [hfind, hrfind]
  simp only []
  have hpos : 0 < name.length := List.length_pos.mpr hne
  rw [if_pos (by omega)]
  have hsub : substr ((kwMarker ++ name) ++ eqMarker) (10 + 1) (11 + name.length - (10 + 1)) =
      name := by
    unfold substr
    have h1 : (11 : Nat) + name.length - (10 + 1) = name.length := by omega
    rw [h1]
    rw [show ((kwMarker ++ name) ++ eqMarker) = kwMarker ++ (name ++ eqMarker) from by
      rw [List.append_assoc]]
    rw [show (10 + 1 : Nat) = kwMarker.length from rfl]
    rw [List.drop_left kwMarker (name ++ eqMarker)]
    exact List.take_left ..
  rw [hsub]

theorem loadLine_paramsLine (st : LoadState) (hst : st.in_entry = true) (s : Str)
    (hne : s ≠ []) (htrim : trim s = s) :
    loadLine st ((paramsMarker ++ s) ++ eqMarker) =
      { st with current_params := st.current_params ++ parseParams s } := by
  unfold loadLine
  rw [hst]
  rw [if_neg (by simp)]
  rw [if_pos (by
    apply List.isPrefixOf_iff_prefix.mpr
    rw [List.append_assoc]
    exact List.prefix_append paramsMarker (s ++ eqMarker))]
  have hfind : strFind ':' ((paramsMarker ++ s) ++ eqMarker) = some 9 := rfl
  have hrfind : rfindStr eqMarker ((paramsMarker ++ s) ++ eqMarker) =
      some (10 + s.length) := by
    rw [rfindStr_eq_of_trailing (paramsMarker ++ s)]
    simp only [List.length_append]
    rw [show (paramsMarker : Str).length = 10 from rfl]
  rw [hfind, hrfind]
  simp only []
  rw [if_pos (by
    have : s.length ≠ 0 := fun h0 => hne (List.length_eq_zero.mp h0)
    omega)]
  have hsub : substr ((paramsMarker ++ s) ++ eqMarker) (9 + 1) (10 + s.length - (9 + 1)) =
      s := by
    unfold substr
    have h1 : (10 : Nat) + s.length - (9 + 1) = s.length := by omega
    rw [h1]
    rw [show ((paramsMarker ++ s) ++ eqMarker) = paramsMarker ++ (s ++ eqMarker) from by
      rw [List.append_assoc]]
    rw [show (9 + 1 : Nat) = paramsMarker.length from rfl]
    rw [List.drop_left paramsMarker (s ++ eqMarker)]
    exact List.take_left ..
  rw [hsub, htrim]
  rw [if_pos hne]

theorem loadLine_bodyLine (st : LoadState) (hst : st.in_entry = true) (l : Str)
    (h1 : paramsMarker.isPrefixOf l = false) (h2 : l ≠ endMarker) :
    loadLine st l = { st with buffer := st.buffer ++ l ++ ['\n'] } := by
  unfold loadLine
  rw [hst]
  rw [if_neg (by simp)]
  rw [if_neg (by simp [h1]), if_neg h2]

theorem loadLine_endLine (st : LoadState) (hst : st.in_entry = true) :
    loadLine st endMarker =
      ⟨mapInsert (trim st.current_key) ⟨st.buffer, st.current_params⟩ st.out,
       [], [], [], false⟩ := by
  unfold loadLine
  rw [hst]
  rw [if_neg (by simp)]
  rw [if_neg (by decide), if_pos rfl]

/-! ## Round-trip validity conditions -/

/-- A macro name for which the on-disk format is faithful: nonempty,
trim-stable, newline-free. -/
def ValidName (name : Str) : Prop :=
  name ≠ [] ∧ trim name = name ∧ ('\n') ∉ name

/-- A parameter pair for which the on-disk format is faithful: the name is
nonempty, trim-stable and free of `,`, `=` and newlines; the default is
trim-stable and free of `,` and newlines. -/
def ValidParam (p : Str × Str) : Prop :=
  p.1 ≠ [] ∧ trim p.1 = p.1 ∧ (',') ∉ p.1 ∧ ('=') ∉ p.1 ∧ ('\n') ∉ p.1 ∧
  trim p.2 = p.2 ∧ (',') ∉ p.2 ∧ ('\n') ∉ p.2

/-- A snippet for which the on-disk format is faithful: newline-terminated
(equivalently, it equals its lines rejoined with newlines) and no line is
the end marker or starts with the params marker. -/
def ValidBody (snippet : Str) : Prop :=
  snippet = joinNl (getLines snippet) ∧
  ∀ l ∈ getLines snippet, paramsMarker.isPrefixOf l = false ∧ l ≠ endMarker

/-- A store entry within the format's faithful fragment. -/
def ValidEntry (name : Str) (uk : UserKeyword) : Prop :=
  ValidName name ∧ (∀ p ∈ uk.params, ValidParam p) ∧ ValidBody uk.snippet

instance (name : Str) : Decidable (ValidName name) := by
  unfold ValidName
  infer_instance

instance (p : Str × Str) : Decidable (ValidParam p) := by
  unfold ValidParam
  infer_instance

instance (snippet : Str) : Decidable (ValidBody snippet) := by
  unfold ValidBody
  infer_instance

instance (name : Str) (uk : UserKeyword) : Decidable (ValidEntry name uk) := by
  unfold ValidEntry
  infer_instance

/-! ## Lemmas: parameter list round trip -/

theorem splitCh_of_not_mem (d : Char) :
    ∀ (x : Str), d ∉ x → x ≠ [] → splitCh d x = [x] := by
  intro x
  induction x with
  | nil => intro _ h; exact absurd rfl h
  | cons c x' ih =>
    intro hmem _
    have hc : ¬(c = d) := fun he => hmem (he ▸ List.mem_cons_self c x')
    have hm' : d ∉ x' := fun hm => hmem (List.mem_cons_of_mem c hm)
    rw [splitCh, if_neg hc]
    cases hx' : x' with
    | nil => rfl
    | cons y ys =>
      rw [← hx', ih hm' (by rw [hx']; exact List.cons_ne_nil y ys)]

theorem splitCh_append_cons (d : Char) (y : Str) :
    ∀ (x : Str), d ∉ x → x ≠ [] → splitCh d (x ++ d :: y) = x :: splitCh d y := by
  intro x
  induction x with
  | nil => intro _ h; exact absurd rfl h
  | cons c x' ih =>
    intro hmem _
    have hc : ¬(c = d) := fun he => hmem (he ▸ List.mem_cons_self c x')
    have hm' : d ∉ x' := fun hm => hmem (List.mem_cons_of_mem c hm)
    rw [List.cons_append, splitCh, if_neg hc]
    cases hx' : x' with
    | nil =>
      show (match splitCh d (d :: y) with
        | [] => [[c]]
        | l :: ls => (c :: l) :: ls) = [c] :: splitCh d y
      rw [show splitCh d (d :: y) = [] :: splitCh d y from by simp [splitCh]]
    | cons z zs =>
      rw [← hx', ih hm' (by rw [hx']; exact List.cons_ne_nil z zs)]

theorem eqcons_concat_form (l : Str) (htr : trim l = l) :
    ∃ mid b, ('=' :: l) = mid ++ [b] ∧ isSpaceC b = false := by
  cases l with
  | nil => exact ⟨[], '=', rfl, by decide⟩
  | cons x t =>
    rcases List.eq_nil_or_concat (x :: t) with he | ⟨mid0, b0, he⟩
    · exact absurd he (List.cons_ne_nil x t)
    · rw [List.concat_eq_append] at he
      refine ⟨'=' :: mid0, b0, by rw [he]; rfl, ?_⟩
      have hb0 : (x :: t).getLast (List.cons_ne_nil x t) = b0 := by
        have h5 : (x :: t).getLast? = some b0 := by
          rw [he]
          exact List.getLast?_concat _
        have h7 := List.getLast?_eq_getLast (x :: t) (List.cons_ne_nil x t)
        rw [h7] at h5
        exact Option.some.inj h5
      have := trim_stable_last (List.cons_ne_nil x t) htr
      rwa [hb0] at this

theorem trim_eq_self_of_head_concat {s : Str} {c : Char} {t init : Str} {b : Char}
    (h1 : s = c :: t) (h2 : s = init ++ [b])
    (hc : isSpaceC c = false) (hb : isSpaceC b = false) : trim s = s := by
  subst h1
  apply trim_eq_self_of_ends (List.cons_ne_nil c t)
  · simpa using hc
  · have h5 : (c :: t).getLast? = some b := by
      rw [h2]
      exact List.getLast?_concat _
    have h7 := List.getLast?_eq_getLast (c :: t) (List.cons_ne_nil c t)
    rw [h7] at h5
    rw [Option.some.inj h5]
    exact hb

theorem trim_part_eq {p : Str × Str} (hv : ValidParam p) :
    trim (p.1 ++ '=' :: p.2) = p.1 ++ '=' :: p.2 := by
  cases hp1 : p.1 with
  | nil => exact absurd hp1 hv.1
  | cons c n' =>
    have hc : isSpaceC c = false := by
      have ht := hv.2.1
      rw [hp1] at ht
      exact trim_stable_head ht
    rcases eqcons_concat_form p.2 hv.2.2.2.2.2.1 with ⟨mid, b, hm, hb⟩
    have h2 : c :: n' ++ '=' :: p.2 = ((c :: n') ++ mid) ++ [b] := by
      rw [hm, ← List.append_assoc]
    exact trim_eq_self_of_head_concat rfl h2 hc hb

theorem paramJoin_head_form (p : Str × Str) (rest : List (Str × Str)) (hp : p.1 ≠ [])
    (htr : trim p.1 = p.1) :
    ∃ c t, paramJoin (p :: rest) = c :: t ∧ isSpaceC c = false := by
  obtain ⟨c, n', hn⟩ : ∃ c n', p.1 = c :: n' := by
    cases hn : p.1 with
    | nil => exact absurd hn hp
    | cons c n' => exact ⟨c, n', rfl⟩
  have hc : isSpaceC c = false := by
    rw [hn] at htr
    exact trim_stable_head htr
  cases rest with
  | nil =>
    refine ⟨c, n' ++ '=' :: p.2, ?_, hc⟩
    rw [show paramJoin [p] = p.1 ++ '=' :: p.2 from rfl, hn]
    rfl
  | cons q rest' =>
    refine ⟨c, n' ++ '=' :: (p.2 ++ ',' :: paramJoin (q :: rest')), ?_, hc⟩
    rw [show paramJoin (p :: q :: rest') =
        p.1 ++ '=' :: (p.2 ++ ',' :: paramJoin (q :: rest')) from rfl, hn]
    rfl

theorem paramJoin_concat_form :
    ∀ (ps : List (Str × Str)), ps ≠ [] → (∀ p ∈ ps, ValidParam p) →
      ∃ init b, paramJoin ps = init ++ [b] ∧ isSpaceC b = false := by
  intro ps
  induction ps with
  | nil => intro h; exact absurd rfl h
  | cons p rest ih =>
    intro _ hv
    cases rest with
    | nil =>
      have hvp := hv p (List.mem_cons_self p [])
      rcases eqcons_concat_form p.2 hvp.2.2.2.2.2.1 with ⟨mid, b, hm, hb⟩
      refine ⟨p.1 ++ mid, b, ?_, hb⟩
      rw [show paramJoin [p] = p.1 ++ '=' :: p.2 from rfl, hm, ← List.append_assoc]
    | cons q rest' =>
      rcases ih (List.cons_ne_nil q rest')
          (fun x hx => hv x (List.mem_cons_of_mem p hx)) with ⟨init', b', hj, hb'⟩
      refine ⟨p.1 ++ '=' :: (p.2 ++ ',' :: init'), b', ?_, hb'⟩
      rw [show paramJoin (p :: q :: rest') =
          p.1 ++ '=' :: (p.2 ++ ',' :: paramJoin (q :: rest')) from rfl]
      rw [hj]
      simp

theorem paramJoin_ne_nil (p : Str × Str) (rest : List (Str × Str)) :
    paramJoin (p :: rest) ≠ [] := by
  cases rest with
  | nil =>
    show p.1 ++ '=' :: p.2 ≠ []
    simp
  | cons q rest' =>
    show p.1 ++ '=' :: (p.2 ++ ',' :: paramJoin (q :: rest')) ≠ []
    simp

theorem paramJoin_trim (ps : List (Str × Str)) (hne : ps ≠ [])
    (hv : ∀ p ∈ ps, ValidParam p) : trim (paramJoin ps) = paramJoin ps := by
  cases ps with
  | nil => exact absurd rfl hne
  | cons p rest =>
    have hvp := hv p (List.mem_cons_self p rest)
    rcases paramJoin_head_form p rest hvp.1 hvp.2.1 with ⟨c, t, hct, hc⟩
    rcases paramJoin_concat_form (p :: rest) (List.cons_ne_nil p rest) hv with
      ⟨init, b, hib, hb⟩
    exact trim_eq_self_of_head_concat hct hib hc hb

theorem comma_not_mem_part {p : Str × Str} (hv : ValidParam p) :
    (',') ∉ p.1 ++ '=' :: p.2 := by
  intro hmem
  rcases List.mem_append.mp hmem with h | h
  · exact hv.2.2.1 h
  · rcases List.mem_cons.mp h with h2 | h2
    · exact absurd h2 (by decide)
    · exact hv.2.2.2.2.2.2.1 h2

theorem split_csv_paramJoin : ∀ (ps : List (Str × Str)), ps ≠ [] →
    (∀ p ∈ ps, ValidParam p) →
    split_csv (paramJoin ps) = ps.map (fun p => p.1 ++ '=' :: p.2) := by
  intro ps
  induction ps with
  | nil => intro h; exact absurd rfl h
  | cons p rest ih =>
    intro _ hv
    have hvp := hv p (List.mem_cons_self p rest)
    cases rest with
    | nil =>
      unfold split_csv
      rw [show paramJoin [p] = p.1 ++ '=' :: p.2 from rfl]
      rw [splitCh_of_not_mem ',' _ (comma_not_mem_part hvp) (by simp)]
      simp only [List.map_cons, List.map_nil]
      rw [trim_part_eq hvp]
    | cons q rest' =>
      have hre : paramJoin (p :: q :: rest') =
          (p.1 ++ '=' :: p.2) ++ ',' :: paramJoin (q :: rest') := by
        show p.1 ++ '=' :: (p.2 ++ ',' :: paramJoin (q :: rest')) = _
        simp
      unfold split_csv
      rw [hre, splitCh_append_cons ',' _ _ (comma_not_mem_part hvp) (by simp)]
      simp only [List.map_cons]
      rw [trim_part_eq hvp]
      have ih2 := ih (List.cons_ne_nil q rest')
        (fun x hx => hv x (List.mem_cons_of_mem p hx))
      unfold split_csv at ih2
      rw [ih2]
      rfl

theorem strFind_append_eq : ∀ (n : Str) (d : Str), ('=') ∉ n →
    strFind '=' (n ++ '=' :: d) = some n.length := by
  intro n
  induction n with
  | nil => intro d _; simp [strFind]
  | cons c n' ih =>
    intro d hmem
    have hc : ¬(c = '=') := fun he => hmem (he ▸ List.mem_cons_self c n')
    rw [List.cons_append, strFind, if_neg hc,
        ih d (fun hm => hmem (List.mem_cons_of_mem c hm))]
    simp

theorem parseParamStep_part (acc : List (Str × Str)) {p : Str × Str} (hv : ValidParam p) :
    parseParamStep acc (p.1 ++ '=' :: p.2) = acc ++ [p] := by
  unfold parseParamStep
  rw [strFind_append_eq p.1 p.2 hv.2.2.2.1]
  have hname : trim (substr (p.1 ++ '=' :: p.2) 0 p.1.length) = p.1 := by
    unfold substr
    rw [List.drop_zero, List.take_left, hv.2.1]
  have hdef : trim ((p.1 ++ '=' :: p.2).drop (p.1.length + 1)) = p.2 := by
    rw [show p.1 ++ '=' :: p.2 = (p.1 ++ ['=']) ++ p.2 from by simp]
    rw [show p.1.length + 1 = (p.1 ++ ['=']).length from by simp]
    rw [List.drop_left, hv.2.2.2.2.2.1]
  simp only [hname, hdef]
  rw [if_pos hv.1]

theorem foldl_parseParamStep_parts : ∀ (ps : List (Str × Str)) (acc : List (Str × Str)),
    (∀ p ∈ ps, ValidParam p) →
    (ps.map (fun p => p.1 ++ '=' :: p.2)).foldl parseParamStep acc = acc ++ ps := by
  intro ps
  induction ps with
  | nil => intro acc _; simp
  | cons p rest ih =>
    intro acc hv
    simp only [List.map_cons, List.foldl_cons]
    rw [parseParamStep_part acc (hv p (List.mem_cons_self p rest))]
    rw [ih (acc ++ [p]) (fun x hx => hv x (List.mem_cons_of_mem p hx))]
    simp

theorem parseParams_paramJoin (ps : List (Str × Str)) (hv : ∀ p ∈ ps, ValidParam p) :
    parseParams (paramJoin ps) = ps := by
  cases ps with
  | nil => rfl
  | cons p rest =>
    unfold parseParams
    rw [split_csv_paramJoin (p :: rest) (List.cons_ne_nil p rest) hv]
    rw [foldl_parseParamStep_parts (p :: rest) [] hv]
    rfl

/-! ## Lemmas: block-level loading -/

theorem foldl_loadLine_bodyLines : ∀ (bls : List Str) (st : LoadState),
    st.in_entry = true →
    (∀ l ∈ bls, paramsMarker.isPrefixOf l = false ∧ l ≠ endMarker) →
    bls.foldl loadLine st = { st with buffer := st.buffer ++ joinNl bls } := by
  intro bls
  induction bls with
  | nil =>
    intro st _ _
    cases st
    simp [joinNl]
  | cons l bls' ih =>
    intro st hst hv
    have hl := hv l (List.mem_cons_self l bls')
    rw [List.foldl_cons, loadLine_bodyLine st hst l hl.1 hl.2]
    have hrec := ih { st with buffer := st.buffer ++ l ++ ['\n'] } hst
      (fun x hx => hv x (List.mem_cons_of_mem l hx))
    rw [hrec]
    cases st
    simp [joinNl]

theorem paramJoin_ne_nil_of_ne (ps : List (Str × Str)) (h : ps ≠ []) :
    paramJoin ps ≠ [] := by
  cases ps with
  | nil => exact absurd rfl h
  | cons p rest => exact paramJoin_ne_nil p rest

theorem foldl_loadLine_cons (b : LoadState) (x : Str) (l : List Str) :
    List.foldl loadLine b (x :: l) = List.foldl loadLine (loadLine b x) l := rfl

theorem foldl_saveEntryLines (st : LoadState) (hst : st.in_entry = false) (name : Str)
    (uk : UserKeyword) (hv : ValidEntry name uk) :
    (saveEntryLines name uk).foldl loadLine st =
      ⟨mapInsert name uk st.out, [], [], [], false⟩ := by
  have hne : name ≠ [] := hv.1.1
  have htrim : trim name = name := hv.1.2.1
  have hvp := hv.2.1
  have hbody1 := hv.2.2.1
  have hbody2 := hv.2.2.2
  have huk : (⟨uk.snippet, uk.params⟩ : UserKeyword) = uk := rfl
  unfold saveEntryLines
  rw [List.foldl_cons, loadLine_kwLine st hst name hne, htrim]
  by_cases hps : uk.params = []
  · rw [if_neg (by simp [hps]), List.nil_append, List.foldl_append]
    rw [foldl_loadLine_bodyLines (getLines uk.snippet) _ rfl hbody2]
    rw [show ∀ st' : LoadState, List.foldl loadLine st' [endMarker] = loadLine st' endMarker
      from fun st' => rfl]
    rw [loadLine_endLine _ rfl]
    simp only [List.nil_append]
    rw [htrim, ← hbody1, ← hps, huk]
  · rw [if_pos (by simp [hps]), List.singleton_append, List.cons_append, foldl_loadLine_cons]
    rw [loadLine_paramsLine _ rfl (paramJoin uk.params)
      (paramJoin_ne_nil_of_ne uk.params hps) (paramJoin_trim uk.params hps hvp)]
    rw [List.foldl_append]
    rw [foldl_loadLine_bodyLines (getLines uk.snippet) _ rfl hbody2]
    rw [show ∀ st' : LoadState, List.foldl loadLine st' [endMarker] = loadLine st' endMarker
      from fun st' => rfl]
    rw [loadLine_endLine _ rfl]
    simp only [List.nil_append]
    rw [htrim, ← hbody1, parseParams_paramJoin uk.params hvp, huk]

theorem foldl_save_blocks : ∀ (m : Store) (st : LoadState), st.in_entry = false →
    (∀ kv ∈ m, ValidEntry kv.1 kv.2) →
    (save_user_keywords m).foldl loadLine st =
      ⟨m.foldl (fun acc kv => mapInsert kv.1 kv.2 acc) st.out,
       st.current_key, st.current_params, st.buffer, st.in_entry⟩ ∨
    ((save_user_keywords m).foldl loadLine st =
      ⟨m.foldl (fun acc kv => mapInsert kv.1 kv.2 acc) st.out, [], [], [], false⟩) := by
  intro m
  induction m with
  | nil =>
    intro st _ _
    left
    cases st
    rfl
  | cons kv m' ih =>
    intro st hst hv
    right
    have hsave : save_user_keywords (kv :: m') =
        saveEntryLines kv.1 kv.2 ++ save_user_keywords m' := by
      simp [save_user_keywords]
    rw [hsave, List.foldl_append]
    rw [foldl_saveEntryLines st hst kv.1 kv.2 (hv kv (List.mem_cons_self kv m'))]
    rcases ih ⟨mapInsert kv.1 kv.2 st.out, [], [], [], false⟩ rfl
        (fun x hx => hv x (List.mem_cons_of_mem kv hx)) with h | h
    · rw [h]
      rfl
    · rw [h]
      rfl

theorem mapInsert_append_of_all_lt {α : Type} (k : Str) (v : α) :
    ∀ (l : List (Str × α)), (∀ p ∈ l, ltStr p.1 k = true) →
      mapInsert k v l = l ++ [(k, v)] := by
  intro l
  induction l with
  | nil => intro _; rfl
  | cons p rest ih =>
    intro h
    have hpk := h p (List.mem_cons_self p rest)
    have h1 : ¬(ltStr k p.1 = true) := by
      intro hc
      have := ltStr_trans k p.1 k hc hpk
      rw [ltStr_irrefl k] at this
      exact Bool.noConfusion this
    have h2 : k ≠ p.1 := by
      intro he
      rw [← he] at hpk
      rw [ltStr_irrefl k] at hpk
      exact Bool.noConfusion hpk
    rcases p with ⟨k1, v1⟩
    show mapInsert k v ((k1, v1) :: rest) = (k1, v1) :: rest ++ [(k, v)]
    rw [mapInsert]
    rw [if_neg h1, if_neg h2, ih (fun x hx => h x (List.mem_cons_of_mem (k1, v1) hx))]
    rfl

theorem foldl_mapInsert_sorted : ∀ (m : Store) (acc : Store),
    ((acc ++ m).Pairwise (fun a b => ltStr a.1 b.1 = true)) →
    m.foldl (fun acc kv => mapInsert kv.1 kv.2 acc) acc = acc ++ m := by
  intro m
  induction m with
  | nil => intro acc _; simp
  | cons kv m' ih =>
    intro acc hp
    simp only [List.foldl_cons]
    have hlt : ∀ p ∈ acc, ltStr p.1 kv.1 = true := by
      intro p hp2
      exact (List.pairwise_append.mp hp).2.2 p hp2 kv (List.mem_cons_self kv m')
    rw [mapInsert_append_of_all_lt kv.1 kv.2 acc hlt]
    have hp' : ((acc ++ [kv]) ++ m').Pairwise (fun a b => ltStr a.1 b.1 = true) := by
      rw [List.append_assoc, List.singleton_append]
      exact hp
    rw [ih (acc ++ [kv]) hp']
    simp

/-! ## Claim C1 — save/load round trip -/

/-- C1 (amended): `Load(Save(M)) = M` on the format's faithful fragment:
macro names nonempty, trim-stable and newline-free; parameter names
nonempty, trim-stable, free of `,`, `=` and newlines; parameter defaults
trim-stable and free of `,` and newlines; bodies empty or
newline-terminated with no line equal to the end marker or starting with
the params marker (the map in its sorted representation). -/
theorem claim_c1_roundtrip (m : Store)
    (hsorted : m.Pairwise (fun a b => ltStr a.1 b.1 = true))
    (hvalid : ∀ kv ∈ m, ValidEntry kv.1 kv.2) :
    load_user_keywords (save_user_keywords m) = m := by
  simp only [load_user_keywords]
  rcases foldl_save_blocks m initLoad rfl hvalid with h | h
  · rw [h]
    rw [if_neg (by intro hcon; exact Bool.noConfusion hcon.1)]
    exact foldl_mapInsert_sorted m [] (by simpa using hsorted)
  · rw [h]
    rw [if_neg (by intro hcon; exact Bool.noConfusion hcon.1)]
    exact foldl_mapInsert_sorted m [] (by simpa using hsorted)

/-- Witness for C1 on a concrete two-macro store. -/
theorem claim_c1_witness :
    load_user_keywords (save_user_keywords
      [(str "alpha", ⟨str "cout << 1;\ncout << 2;\n", [(str "a", str "1")]⟩),
       (str "beta", ⟨str "", []⟩)]) =
      [(str "alpha", ⟨str "cout << 1;\ncout << 2;\n", [(str "a", str "1")]⟩),
       (str "beta", ⟨str "", []⟩)] :=
  claim_c1_roundtrip _ (by decide) (by decide)

/-- C1 (counterexample): a body without a trailing newline is not
reproduced — the writer appends a newline, so the reloaded body differs
although the name and parameters contain no reserved substrings. -/
theorem claim_c1_counterexample :
    load_user_keywords (save_user_keywords [(str "kw", ⟨str "abc", []⟩)]) =
      [(str "kw", ⟨str "abc\n", []⟩)]
    ∧ load_user_keywords (save_user_keywords [(str "kw", ⟨str "abc", []⟩)]) ≠
      [(str "kw", ⟨str "abc", []⟩)] := by
  decide

/-! ## Claim C9 — truncated final block -/

/-- C9: a file holding one well-formed block and then a block opened by a
valid `===KEYWORD:` line but never closed is loaded by committing both: the
well-formed entry, and a best-effort entry whose parameters and body are
whatever accumulated up to end of file. -/
theorem claim_c9_truncated_commit (name1 : Str) (uk1 : UserKeyword)
    (hv1 : ValidEntry name1 uk1)
    (name2 : Str) (hn2a : name2 ≠ []) (hn2b : trim name2 = name2)
    (ps2 : List (Str × Str)) (hps2 : ∀ p ∈ ps2, ValidParam p)
    (bls2 : List Str)
    (hbls2 : ∀ l ∈ bls2, paramsMarker.isPrefixOf l = false ∧ l ≠ endMarker) :
    load_user_keywords
      (saveEntryLines name1 uk1 ++
        ((kwMarker ++ name2) ++ eqMarker) ::
         ((if ps2 ≠ [] then [(paramsMarker ++ paramJoin ps2) ++ eqMarker] else []) ++ bls2)) =
      mapInsert name2 ⟨joinNl bls2, ps2⟩ (mapInsert name1 uk1 []) := by
  have hstate : (saveEntryLines name1 uk1 ++
      ((kwMarker ++ name2) ++ eqMarker) ::
       ((if ps2 ≠ [] then [(paramsMarker ++ paramJoin ps2) ++ eqMarker] else []) ++
        bls2)).foldl loadLine initLoad =
      (⟨mapInsert name1 uk1 [], name2, ps2, joinNl bls2, true⟩ : LoadState) := by
    rw [List.foldl_append, foldl_saveEntryLines initLoad rfl name1 uk1 hv1,
        foldl_loadLine_cons, loadLine_kwLine _ rfl name2 hn2a, hn2b]
    by_cases hps : ps2 = []
    · rw [if_neg (fun h => h hps), List.nil_append,
          foldl_loadLine_bodyLines bls2 _ rfl hbls2, hps]
      rfl
    · rw [if_pos hps, List.singleton_append, foldl_loadLine_cons,
          loadLine_paramsLine _ rfl (paramJoin ps2)
            (paramJoin_ne_nil_of_ne ps2 hps) (paramJoin_trim ps2 hps hps2),
          foldl_loadLine_bodyLines bls2 _ rfl hbls2,
          parseParams_paramJoin ps2 hps2]
      rfl
  simp only [load_user_keywords]
  rw [hstate]
  rw [if_pos ⟨rfl, hn2a⟩]
  rw [hn2b]

/-- Witness for C9 on a concrete file. -/
theorem claim_c9_witness :
    load_user_keywords
      (saveEntryLines (str "good") ⟨str "x;\n", []⟩ ++
        ((kwMarker ++ str "trunc") ++ eqMarker) ::
         ((if ([(str "p", str "0")] : List (Str × Str)) ≠ []
             then [(paramsMarker ++ paramJoin [(str "p", str "0")]) ++ eqMarker] else []) ++
          [str "y;", str "z;"])) =
      mapInsert (str "trunc") ⟨joinNl [str "y;", str "z;"], [(str "p", str "0")]⟩
        (mapInsert (str "good") ⟨str "x;\n", []⟩ []) :=
  claim_c9_truncated_commit (str "good") ⟨str "x;\n", []⟩ (by decide)
    (str "trunc") (by decide) (by decide)
    [(str "p", str "0")] (by decide)
    [str "y;", str "z;"] (by decide)

/-! ## Claim C3 — placeholder substitution -/

/-- The spec's example macro: parameters `a=1`, `b=2`, body `x={a} y={b}`. -/
def demoMacro : UserKeyword :=
  ⟨str "x=\x7ba\x7d y=\x7bb\x7d\n", [(str "a", str "1"), (str "b", str "2")]⟩

theorem demo_chain (va : Str) (hb : occursIn (str "\x7bb\x7d") va = false) :
    replace_all (replace_all (str "x=\x7ba\x7d y=\x7bb\x7d\n") (str "\x7ba\x7d") va)
        (str "\x7bb\x7d") (str "2") =
      str "x=" ++ va ++ str " y=2\n" := by
  have step1 : replace_all (str "x=\x7ba\x7d y=\x7bb\x7d\n") (str "\x7ba\x7d") va =
      str "x=" ++ va ++ str " y=\x7bb\x7d\n" := by
    rw [replace_all, if_neg (by decide)]
    rw [show str "x=\x7ba\x7d y=\x7bb\x7d\n" =
        'x' :: '=' :: (str "\x7ba\x7d" ++ str " y=\x7bb\x7d\n") from rfl]
    rw [replaceAllGo_cons_of_neg _ _ _ _ (by decide)]
    rw [replaceAllGo_cons_of_neg _ _ _ _ (by decide)]
    rw [show str "\x7ba\x7d" ++ str " y=\x7bb\x7d\n" =
        '{' :: ('a' :: '}' :: str " y=\x7bb\x7d\n") from rfl]
    rw [replaceAllGo_cons_of_pos _ _ _ _ (by decide)]
    rw [show (('a' :: '}' :: str " y=\x7bb\x7d\n").drop ((str "\x7ba\x7d").length - 1)) =
        str " y=\x7bb\x7d\n" from rfl]
    rw [replaceAllGo_no_match _ _ _ (by decide)]
    rfl
  rw [step1, replace_all, if_neg (by decide)]
  rw [show str "x=" ++ va ++ str " y=\x7bb\x7d\n" =
      'x' :: '=' :: (va ++ str " y=\x7bb\x7d\n") from rfl]
  have hx : (str "\x7bb\x7d").isPrefixOf ('x' :: '=' :: (va ++ str " y=\x7bb\x7d\n")) = false := by
    simp [List.isPrefixOf]
  rw [replaceAllGo_cons_of_neg _ _ _ _ hx]
  have he : (str "\x7bb\x7d").isPrefixOf ('=' :: (va ++ str " y=\x7bb\x7d\n")) = false := by
    simp [List.isPrefixOf]
  rw [replaceAllGo_cons_of_neg _ _ _ _ he]
  have hcross : ∀ v', v' <:+ va → v' ≠ [] →
      (str "\x7bb\x7d").isPrefixOf (v' ++ str " y=\x7bb\x7d\n") = false := by
    intro v' hs hne
    match v' with
    | [] => exact absurd rfl hne
    | [a] =>
      have hm : (('b' : Char) == ' ') = false := by decide
      simp [List.isPrefixOf, hm]
    | [a, b2] =>
      have hm : (('}' : Char) == ' ') = false := by decide
      simp [List.isPrefixOf, hm]
    | a :: b2 :: c3 :: v4 =>
      rw [prefixOf_append_of_le _ _ _ (by simp [str])]
      exact occursIn_false_suffix _ va hb _ hs
  rw [replaceAllGo_append _ _ _ va hcross]
  rw [show str " y=\x7bb\x7d\n" = ' ' :: 'y' :: '=' :: (str "\x7bb\x7d" ++ ['\n']) from rfl]
  rw [replaceAllGo_cons_of_neg _ _ _ _ (by decide)]
  rw [replaceAllGo_cons_of_neg _ _ _ _ (by decide)]
  rw [replaceAllGo_cons_of_neg _ _ _ _ (by decide)]
  rw [show str "\x7bb\x7d" ++ ['\n'] = '{' :: ('b' :: '}' :: ['\n']) from rfl]
  rw [replaceAllGo_cons_of_pos _ _ _ _ (by decide)]
  rw [show (('b' :: '}' :: ['\n']).drop ((str "\x7bb\x7d").length - 1)) = ['\n'] from rfl]
  rw [replaceAllGo_no_match _ _ _ (by decide)]
  rfl

theorem demoMacro_parts (values : List (Str × Str)) (va tag : Str)
    (hres : (match mapFind (str "a") values with | some v => v | none => str "1") = va)
    (hfree : mapFind (str "b") values = none)
    (hb : occursIn (str "\x7bb\x7d") va = false)
    (hnl : ('\n' : Char) ∉ va)
    (hm : occursIn intMainSig (str "x=" ++ va ++ str " y=2\n") = false) :
    parts_from_user_snippet_with_params demoMacro values tag =
      ⟨[], [], [snippetHeaderLine tag, str "x=" ++ va ++ str " y=2"]⟩ := by
  have hsubst : substitute_params demoMacro values = str "x=" ++ va ++ str " y=2\n" := by
    show replace_all
        (replace_all (str "x=\x7ba\x7d y=\x7bb\x7d\n") (str "\x7ba\x7d")
          (match mapFind (str "a") values with | some v => v | none => str "1"))
        (str "\x7bb\x7d")
        (match mapFind (str "b") values with | some v => v | none => str "2") =
      str "x=" ++ va ++ str " y=2\n"
    rw [hres, hfree]
    exact demo_chain va hb
  have hsplit : getLines (str "x=" ++ va ++ str " y=2\n") =
      [str "x=" ++ va ++ str " y=2"] := by
    rw [show str "x=" ++ va ++ str " y=2\n" = (str "x=" ++ va ++ str " y=2") ++ ['\n'] by
      simp [str]]
    apply getLines_snoc_nl
    intro hmem
    rcases List.mem_append.mp hmem with hmem2 | hmem2
    · rcases List.mem_append.mp hmem2 with hmem3 | hmem3
      · exact absurd hmem3 (by decide)
      · exact hnl hmem3
    · exact absurd hmem2 (by decide)
  have hform : str "x=" ++ va ++ str " y=2" = 'x' :: (('=' :: va ++ str " y=") ++ ['2']) := by
    simp [str]
  have htrim : trim (str "x=" ++ va ++ str " y=2") = str "x=" ++ va ++ str " y=2" := by
    rw [hform]
    exact trim_cons_snoc 'x' '2' ('=' :: va ++ str " y=") (by decide) (by decide)
  have hnotinc : (str "#include").isPrefixOf (str "x=" ++ va ++ str " y=2") = false := by
    rw [show str "x=" ++ va ++ str " y=2" = 'x' :: ('=' :: va ++ str " y=2") from by simp [str]]
    simp [List.isPrefixOf]
  have hnotinc2 : (str "# include").isPrefixOf (str "x=" ++ va ++ str " y=2") = false := by
    rw [show str "x=" ++ va ++ str " y=2" = 'x' :: ('=' :: va ++ str " y=2") from by simp [str]]
    simp [List.isPrefixOf]
  simp only [parts_from_user_snippet_with_params]
  rw [hsubst, hm]
  simp only [Bool.false_eq_true, if_false, hsplit, scanSnippetLines, List.foldl_cons,
    List.foldl_nil, htrim, hnotinc, hnotinc2]
  rfl

/-- C3: expansion substitutes, in declared parameter order, each `{name}`
by the override value when supplied and otherwise by the stored default; on
the macro with parameters `a=1,b=2` and body `x={a} y={b}` the body text is
`x=1 y=2` with no overrides, `x=<v> y=2` with any override `a=v` (for `v`
free of the reserved substrings), and `x=9 y=2` with override `a=9`. -/
theorem claim_c3_expansion (va tag : Str)
    (hb : occursIn (str "\x7bb\x7d") va = false)
    (hnl : ('\n' : Char) ∉ va)
    (hm : occursIn intMainSig (str "x=" ++ va ++ str " y=2\n") = false) :
    (parts_from_user_snippet_with_params demoMacro [] tag).body =
      [snippetHeaderLine tag, str "x=1 y=2"]
    ∧ (parts_from_user_snippet_with_params demoMacro [(str "a", va)] tag).body =
      [snippetHeaderLine tag, str "x=" ++ va ++ str " y=2"]
    ∧ (parts_from_user_snippet_with_params demoMacro [(str "a", str "9")] tag).body =
      [snippetHeaderLine tag, str "x=9 y=2"] := by
  refine ⟨?_, ?_, ?_⟩
  · rw [demoMacro_parts [] (str "1") tag rfl rfl (by decide) (by decide) (by decide)]
    rfl
  · rw [demoMacro_parts [(str "a", va)] va tag rfl rfl hb hnl hm]
  · rw [demoMacro_parts [(str "a", str "9")] (str "9") tag rfl rfl (by decide) (by decide)
      (by decide)]
    rfl

/-- Witness for C3 at the concrete override value `VAL`. -/
theorem claim_c3_witness :
    (parts_from_user_snippet_with_params demoMacro [] (str "t")).body =
      [snippetHeaderLine (str "t"), str "x=1 y=2"]
    ∧ (parts_from_user_snippet_with_params demoMacro [(str "a", str "VAL")] (str "t")).body =
      [snippetHeaderLine (str "t"), str "x=" ++ str "VAL" ++ str " y=2"]
    ∧ (parts_from_user_snippet_with_params demoMacro [(str "a", str "9")] (str "t")).body =
      [snippetHeaderLine (str "t"), str "x=9 y=2"] :=
  claim_c3_expansion (str "VAL") (str "t") (by decide) (by decide) (by decide)

/-! ## Claim C4 — entry-point guard -/

/-- C4: whenever the substituted body contains `int main(`, expansion
returns a fragment with no includes, no top-level declarations, and a body
consisting solely of the two error-comment lines. -/
theorem claim_c4_main_guard (uk : UserKeyword) (values : List (Str × Str)) (tag : Str)
    (h : occursIn intMainSig (substitute_params uk values) = true) :
    parts_from_user_snippet_with_params uk values tag =
      ⟨[], [], [mainErrLine1 tag, mainErrLine2]⟩ := by
  unfold parts_from_user_snippet_with_params
  simp only [h, if_pos]

/-- Witness for C4 at a concrete snippet containing the signature. -/
theorem claim_c4_witness :
    occursIn intMainSig (substitute_params ⟨str "int main()\nreturn 0;\n", []⟩ []) = true ∧
    parts_from_user_snippet_with_params ⟨str "int main()\nreturn 0;\n", []⟩ [] (str "occurrence 1 (token 1)") =
      ⟨[], [], [mainErrLine1 (str "occurrence 1 (token 1)"), mainErrLine2]⟩ :=
  ⟨by decide, claim_c4_main_guard _ _ _ (by decide)⟩

/-! ## Claim C7 — include extraction (`# include` variant off by one) -/

/-- C7 (divergence witness): on the body line `# include <vector>` the code
captures `e <vector>` as the include entry — `substr(8)` keeps the final
`e` of `include` — instead of the claimed trimmed remainder `<vector>`;
the line is still excluded from the body and the origin comment is
prepended. -/
theorem claim_c7_includes_eval :
    parts_from_user_snippet_with_params ⟨str "# include <vector>\nint z;\n", []⟩ []
        (str "occurrence 1 (token 1)") =
      ⟨[str "e <vector>"], [],
       [snippetHeaderLine (str "occurrence 1 (token 1)"), str "int z;"]⟩ := by
  decide

/-! ## Claim C6 — builtin/macro name disjointness -/

/-- C6 (amended): the interactive definition flow rejects a macro whose
normalized name is a built-in C++17 keyword, with an explicit outcome and an
unmutated store. -/
theorem claim_c6_define_rejects_builtin (store : Store)
    (rawName overwriteAnswer params_line : Str) (snippet_lines : List Str)
    (h : cpp17_keywords.contains (normalize_token rawName) = true) :
    add_define_flow store rawName overwriteAnswer params_line snippet_lines =
      (.builtinConflict, store) := by
  have hne : normalize_token rawName ≠ [] := by
    intro he
    rw [he] at h
    exact absurd h (by decide)
  unfold add_define_flow
  simp only [if_neg hne, h, if_pos]

/-- Witness for C6's amended theorem: defining `For!` is rejected. -/
theorem claim_c6_witness :
    cpp17_keywords.contains (normalize_token (str "For!")) = true ∧
    add_define_flow [] (str "For!") (str "") (str "") [] = (.builtinConflict, []) :=
  ⟨by decide, claim_c6_define_rejects_builtin [] (str "For!") (str "") (str "") [] (by decide)⟩

/-- C6 (counterexample): loading a hand-written file block named `for`
puts the built-in name `for` into the macro store — the loader performs no
builtin-collision check, so the disjointness invariant is not preserved by
every store operation. -/
theorem claim_c6_counterexample :
    mapFind (str "for")
        (load_user_keywords [str "===KEYWORD:for===", str "x;", str "===END==="]) =
      some ⟨str "x;\n", []⟩
    ∧ cpp17_keywords.contains (str "for") = true := by
  decide

/-! ## Claim C8 — program assembler -/

/-- Include deduplication as the claim words it (for refutation only, not
translated from the source): exact textual match on the raw directives,
first-seen form and order preserved. -/
def claimedIncludeDedup (seen : List Str) : List Str → List Str
  | [] => []
  | x :: xs =>
    if seen.contains x then claimedIncludeDedup seen xs
    else x :: claimedIncludeDedup (x :: seen) xs

/-- C8 (amended): the assembled program is the fixed core include, then one
`#include` line per distinct normalized include key (normalization wraps
plain names in angle brackets; angle and quote forms stay distinct keys;
empty keys and a second `<iostream>` are dropped) in the include set's
sorted order, then the top-level declarations verbatim in aggregation
order, then the single entry point wrapping the uniformly indented body and
a `return 0;`. -/
theorem claim_c8_assembler (body_lines extra_includes extra_top : List Str) :
    make_program_from_body_lines body_lines extra_includes extra_top =
      str "#include <iostream>\n"
      ++ (includeKeySet extra_includes).flatMap (fun h => str "#include " ++ h ++ ['\n'])
      ++ ['\n']
      ++ extra_top.flatMap (fun t => t ++ ['\n'])
      ++ str "\nusing namespace std;\n\nint main(int argc, char *argv[]) \x7b\n"
      ++ body_lines.flatMap (fun l => str "    " ++ l ++ ['\n'])
      ++ str "    return 0;\n\x7d\n"
    ∧ (includeKeySet extra_includes).Pairwise (fun a b => ltStr a b = true)
    ∧ (includeKeySet extra_includes).Nodup
    ∧ (∀ x, x ∈ includeKeySet extra_includes ↔
        (∃ h, h ∈ extra_includes ∧ normalize_include_for_key h = x) ∧
          x ≠ [] ∧ x ≠ str "<iostream>") := by
  refine ⟨rfl, includeKeySet_pairwise extra_includes, includeKeySet_nodup extra_includes, ?_⟩
  intro x
  rw [includeKeySet, mem_foldl_includeStep]
  constructor
  · intro hcase
    rcases hcase with hacc | ⟨h, hh, hn, hne, hni⟩
    · exact absurd hacc (List.not_mem_nil x)
    · exact ⟨⟨h, hh, hn⟩, hne, hni⟩
  · intro ⟨⟨h, hh, hn⟩, hne, hni⟩
    exact Or.inr ⟨h, hh, hn, hne, hni⟩

/-- C8 (counterexample): the textually distinct directives `vector` and
`<vector>` collapse into the single normalized key `<vector>`, and the
assembled program differs from the claim's exact-textual-dedup,
first-seen-form reading. -/
theorem claim_c8_counterexample :
    includeKeySet [str "vector", str "<vector>"] = [str "<vector>"]
    ∧ claimedIncludeDedup [] [str "vector", str "<vector>"] =
        [str "vector", str "<vector>"]
    ∧ make_program_from_body_lines [] [str "vector", str "<vector>"] [] ≠
        str "#include <iostream>\n"
        ++ (claimedIncludeDedup [] [str "vector", str "<vector>"]).flatMap
            (fun h => str "#include " ++ h ++ ['\n'])
        ++ ['\n']
        ++ str "\nusing namespace std;\n\nint main(int argc, char *argv[]) \x7b\n"
        ++ str "    return 0;\n\x7d\n" := by
  decide

/-! ## Claim C10 — EOF during prompting -/

/-- C10 (amended): when `EOFExit` propagates out of the occurrence loop, the
in-flight line is aborted with no program assembled or displayed and the
store untouched, and the handler terminates the whole run (`return 0`)
rather than re-entering the top-level loop. -/
theorem claim_c10_eof_exits
    (builtinH : Str → Context → Str → List Str → Option (Parts × Context × List Str))
    (store : Store) (occs : List (Str × Nat)) (stdin : List Str)
    (h : dispatchLoop builtinH store occs 0 emptyContext ⟨[], [], []⟩ stdin = none) :
    process_line_occurrences builtinH store occs stdin = .exitRun store := by
  unfold process_line_occurrences
  rw [h]

/-- Witness for C10's amended theorem: one stored single-parameter macro
occurrence with exhausted stdin hits EOF at the first parameter prompt. -/
theorem claim_c10_witness :
    dispatchLoop (fun _ _ _ _ => none)
        [(str "mykw", ⟨str "x;\n", [(str "a", str "1")]⟩)]
        [(str "mykw", 1)] 0 emptyContext ⟨[], [], []⟩ [] = none ∧
    process_line_occurrences (fun _ _ _ _ => none)
        [(str "mykw", ⟨str "x;\n", [(str "a", str "1")]⟩)]
        [(str "mykw", 1)] [] = .exitRun [(str "mykw", ⟨str "x;\n", [(str "a", str "1")]⟩)] :=
  ⟨by decide,
   claim_c10_eof_exits (fun _ _ _ _ => none)
     [(str "mykw", ⟨str "x;\n", [(str "a", str "1")]⟩)]
     [(str "mykw", 1)] [] (by decide)⟩

/-- C10 (counterexample): at the same concrete input, the outcome is
`exitRun` — the run terminates — not a return to the top-level loop with
processing of further input lines, as the claim states. -/
theorem claim_c10_counterexample :
    process_line_occurrences (fun _ _ _ _ => none)
        [(str "kw2", ⟨str "y;\n", [(str "p", str "0")]⟩)]
        [(str "kw2", 1)] [] = .exitRun [(str "kw2", ⟨str "y;\n", [(str "p", str "0")]⟩)]
    ∧ ∀ (prog : Str) (st : Store) (rest : List Str),
        process_line_occurrences (fun _ _ _ _ => none)
            [(str "kw2", ⟨str "y;\n", [(str "p", str "0")]⟩)]
            [(str "kw2", 1)] [] ≠ .displayed prog st rest := by
  refine ⟨by decide, ?_⟩
  intro prog st rest h
  have h2 : process_line_occurrences (fun _ _ _ _ => none)
      [(str "kw2", ⟨str "y;\n", [(str "p", str "0")]⟩)]
      [(str "kw2", 1)] [] = .exitRun [(str "kw2", ⟨str "y;\n", [(str "p", str "0")]⟩)] := by decide
  rw [h2] at h
  exact LineOutcome.noConfusion h

end SnippetGen
